import Mathlib

/-!
# Verification of `readFile` (src/decode.c)

Shallow embedding of the streaming OOK demodulator of `src/decode.c`.

Modelling conventions.

* The C locals of `readFile` become the fields of `State`; the Python list
  `bits` is the field `bits`.
* `float` values (`real`, `imag`, `instPower`, `runningSum`, the buffer cells,
  `threshold`) are modelled by `Int`.  Every value the program stores in them is
  an integer of absolute value below `2^24`, which single precision represents
  exactly, so the integer computation is the computation of the source.
* `long` values (`dataCounter`, `prevEdge`, `edgeCountDiff`, `halfTime`) are
  modelled by `Int`; the counters are assumed to stay inside the range of `long`
  (signed overflow is undefined in C).  The C operator `%` is `Int.tmod`.
* The file is a list of bytes (`Nat`, values `0..255`).  `fread` of `2*W` bytes
  followed by `feof` is modelled by taking the next `2*W` bytes and stopping as
  soon as fewer than `2*W` remain.
-/

namespace Decode

/-- Window length, `#define SMOOTH_WINDOW 488` (line 7). -/
def SMOOTH_WINDOW : Nat := 488

/-- Slicer level, `float threshold = 6800.0` (line 27). -/
def threshold : Int := 6800

/-- The local variables of `readFile` that live across loop iterations
(lines 24-44), together with the output list `bits`. -/
structure State where
  bits : List Int
  runningSum : Int
  buffer : List Int
  power : Int
  edge : Int
  prevPower : Int
  dataCounter : Int
  prevEdge : Int
  edgeCountDiff : Int
  halfTime : Int
  addBit : Int
deriving DecidableEq

/-- Values of the locals when the loop is entered (lines 24-44).  `power`,
`edge` and `addBit` are declared without initialiser in the source; each of
them is written before it is read, and they start here at `0`. -/
def init : State :=
  { bits := []
    runningSum := 0
    buffer := List.replicate SMOOTH_WINDOW 0
    power := 0
    edge := 0
    prevPower := 0
    dataCounter := 0
    prevEdge := -1
    edgeCountDiff := -1
    halfTime := 0
    addBit := 0 }

/-- Instantaneous power of the sample pair at position `j` of the block `raw`
(lines 50-52). -/
def instPower (raw : List Nat) (j : Nat) : Int :=
  let real : Int := (raw.getD (2 * j + 0) 0 : Int) - 127
  let imag : Int := (raw.getD (2 * j + 1) 0 : Int) - 127
  real * real + imag * imag

/-- Lines 50-68: power, sample counter, moving sum, slicer, edge detector. -/
def frontEnd (raw : List Nat) (j : Nat) (s : State) : State :=
  let p : Int := instPower raw j
  let dataCounter : Int := s.dataCounter + 1
  let runningSum : Int := s.runningSum + (p - s.buffer.getD j 0)
  let buffer : List Int := s.buffer.set j p
  let power : Int := if runningSum ≥ threshold * (SMOOTH_WINDOW : Int) then 1 else 0
  let edge : Int := power - s.prevPower
  { s with
    runningSum := runningSum
    buffer := buffer
    power := power
    edge := edge
    prevPower := power
    dataCounter := dataCounter }

/-- Lines 71-76: on an edge, arm `prevEdge` if it is still negative and
compute the interval `edgeCountDiff`. -/
def timing (s : State) : State :=
  if s.edge ≠ 0 then
    let prevEdge : Int := if s.prevEdge < 0 then s.dataCounter else s.prevEdge
    { s with prevEdge := prevEdge, edgeCountDiff := s.dataCounter - prevEdge }
  else s

/-- Lines 97-101 and 122-126: append `bit` when `addBit && halfTime % 2 == 0`. -/
def emit (bit : Int) (s : State) : State :=
  if s.addBit ≠ 0 ∧ Int.tmod s.halfTime 2 = 0 then { s with bits := s.bits ++ [bit] } else s

/-- Lines 81-95: the interval bands of a rising edge. -/
def risingBands (s : State) : State :=
  if s.edgeCountDiff > 80000 then
    { s with prevEdge := s.dataCounter, halfTime := 0, addBit := 1 }
  else if s.edgeCountDiff < 200 ∨ s.edgeCountDiff > 1100 then
    { s with addBit := 0 }
  else if s.edgeCountDiff < 615 then
    { s with prevEdge := s.dataCounter, halfTime := s.halfTime + 1, addBit := 1 }
  else
    { s with prevEdge := s.dataCounter, halfTime := s.halfTime + 2, addBit := 1 }

/-- Lines 106-120: the interval bands of a falling edge. -/
def fallingBands (s : State) : State :=
  if s.edgeCountDiff > 80000 then
    { s with prevEdge := s.dataCounter, halfTime := 0, addBit := 1 }
  else if s.edgeCountDiff < 400 ∨ s.edgeCountDiff > 1400 then
    { s with addBit := 0 }
  else if s.edgeCountDiff < 850 then
    { s with prevEdge := s.dataCounter, halfTime := s.halfTime + 1, addBit := 1 }
  else
    { s with prevEdge := s.dataCounter, halfTime := s.halfTime + 2, addBit := 1 }

/-- Lines 81-101: the rising-edge branch, which appends the bit `1`. -/
def risingEdge (s : State) : State :=
  emit 1 (risingBands s)

/-- Lines 106-126: the falling-edge branch, which appends the bit `0`. -/
def fallingEdge (s : State) : State :=
  emit 0 (fallingBands s)

/-- Lines 70-127: the timing decoder, run on a state whose `edge` and
`dataCounter` are those of the current sample. -/
def decodeEdge (s : State) : State :=
  let s1 : State := timing s
  if s1.edge = 1 then risingEdge s1
  else if s1.edge = -1 then fallingEdge s1
  else s1

/-- Lines 50-127: the body of the `for` loop for position `j` of block `raw`. -/
def sampleStep (raw : List Nat) (j : Nat) (s : State) : State :=
  decodeEdge (frontEnd raw j s)

/-- Lines 49-128: the `for` loop over one block. -/
def processBlock (raw : List Nat) (s : State) : State :=
  (List.range SMOOTH_WINDOW).foldl (fun st j => sampleStep raw j st) s

/-- Lines 47-132: the `while( !feof(fh) )` loop.  `rest` is the unread part of
the file; a read that cannot deliver `2*SMOOTH_WINDOW` bytes sets the
end-of-file indicator and the loop stops without processing them. -/
def readLoop : Nat → List Nat → State → State
  | 0, _, s => s
  | fuel + 1, rest, s =>
    if rest.length < 2 * SMOOTH_WINDOW then s
    else readLoop fuel (rest.drop (2 * SMOOTH_WINDOW))
      (processBlock (rest.take (2 * SMOOTH_WINDOW)) s)

/-- The function `readFile`: the list of bits decoded from the bytes of the
file.  Each iteration consumes `2*SMOOTH_WINDOW` bytes, so `file.length`
iterations always suffice. -/
def readFile (file : List Nat) : List Int :=
  (readLoop file.length file init).bits

/-- The `k`-th block of `2*SMOOTH_WINDOW` bytes of the file. -/
def rawBlock (file : List Nat) (k : Nat) : List Nat :=
  (file.drop (k * (2 * SMOOTH_WINDOW))).take (2 * SMOOTH_WINDOW)

/-- Number of sample pairs the loop processes: whole blocks only. -/
def numSamples (file : List Nat) : Nat :=
  SMOOTH_WINDOW * (file.length / (2 * SMOOTH_WINDOW))

/-- State of the locals after `n` sample pairs have been processed: sample
`n+1` is position `n % W` of block `n / W`. -/
def stateAfter (file : List Nat) : Nat → State
  | 0 => init
  | n + 1 => sampleStep (rawBlock file (n / SMOOTH_WINDOW)) (n % SMOOTH_WINDOW) (stateAfter file n)

/-- Power of the `n`-th sample pair of the file (`n` counted from 1, as
`dataCounter` does); `0` for `n = 0`. -/
def samplePower (file : List Nat) (n : Nat) : Int :=
  if n = 0 then 0
  else instPower (rawBlock file ((n - 1) / SMOOTH_WINDOW)) ((n - 1) % SMOOTH_WINDOW)

/-- Index (counted from 1) of the last of the first `n` samples that was
written to buffer cell `j`; `0` when the cell has not been written yet. -/
def lastWrite : Nat → Nat → Nat
  | 0, _ => 0
  | n + 1, j => if j = n % SMOOTH_WINDOW then n + 1 else lastWrite n j

/-- The interval `d` of an edge of direction `edge` lies in an accepting band:
resync (`d > 80000`), half unit or full unit (rising: `200 <= d <= 1100`,
falling: `400 <= d <= 1400`).  The other intervals are the reject bands. -/
def acceptBand (edge d : Int) : Bool :=
  decide ((edge = 1 ∧ (80000 < d ∨ (200 ≤ d ∧ d ≤ 1100))) ∨
    (edge = -1 ∧ (80000 < d ∨ (400 ≤ d ∧ d ≤ 1400))))

/-- The edge detected at sample `n + 1` is accepted, the most recent accepted
edge before it being at sample `ref` (`0`: there is none): an edge is detected,
and it is the first one (the reference edge) or its interval `n + 1 - ref` lies
in an accepting band.  Only the detected edges and the bands enter, not the
timing variables of the decoder. -/
def acceptedAt (file : List Nat) (n ref : Nat) : Bool :=
  decide ((stateAfter file (n + 1)).edge ≠ 0 ∧
    (ref = 0 ∨ acceptBand (stateAfter file (n + 1)).edge ((n : Int) + 1 - (ref : Int)) = true))

/-- Sample index of the most recent accepted edge (reference, resync, half
unit or full unit) among the first `n` samples; `0` when there is none. -/
def lastAccepted (file : List Nat) : Nat → Nat
  | 0 => 0
  | n + 1 => if acceptedAt file n (lastAccepted file n) then n + 1 else lastAccepted file n

/-- Sample `n` (counted from 1) is an accepted edge: the reference edge, or an
edge whose interval from the most recent accepted edge lies in a resync,
half-unit or full-unit band. -/
def accepted (file : List Nat) : Nat → Bool
  | 0 => false
  | n + 1 => acceptedAt file n (lastAccepted file n)

/-- Exactly one of four propositions holds. -/
def ExactlyOne (a b c d : Prop) : Prop :=
  (a ∨ b ∨ c ∨ d) ∧ ¬ (a ∧ b) ∧ ¬ (a ∧ c) ∧ ¬ (a ∧ d) ∧ ¬ (b ∧ c) ∧ ¬ (b ∧ d) ∧ ¬ (c ∧ d)

/-- The locals at the moment the timing decoder runs for an edge `edge` seen
at sample `now`, the decoder holding `prevEdge` and `halfTime`; the remaining
locals are those of `init`. -/
def atEdge (edge now prevEdge halfTime : Int) : State :=
  { init with edge := edge, dataCounter := now, prevEdge := prevEdge, halfTime := halfTime }

/-- The next edge event `edge` at sample `now`, seen by the decoder left in
state `t`: the timing decoder run with the new `edge` and `dataCounter`. -/
def nextEdge (t : State) (edge now : Int) : State :=
  decodeEdge { t with edge := edge, dataCounter := now }

/-- The bits one run of the timing decoder appends to the output. -/
def newBits (s : State) : List Int :=
  (decodeEdge s).bits.drop s.bits.length

/-- Number of rising edges (`edge == 1`) detected among the first `n` samples. -/
def risingCount (file : List Nat) : Nat → Nat
  | 0 => 0
  | n + 1 => risingCount file n + (if (stateAfter file (n + 1)).edge = 1 then 1 else 0)

/-- Number of falling edges (`edge == -1`) detected among the first `n` samples. -/
def fallingCount (file : List Nat) : Nat → Nat
  | 0 => 0
  | n + 1 => fallingCount file n + (if (stateAfter file (n + 1)).edge = -1 then 1 else 0)

/-- One block of 488 sample pairs: 244 pairs `(255, 255)` (power 32768) followed
by 244 pairs `(127, 127)` (power 0). -/
def riseBlock : List Nat :=
  List.replicate 488 255 ++ List.replicate 488 127

/-- The edge just handled (state after the sample) was a resync: a rising or
falling edge whose interval took the `> 80000` branch (lines 81 and 106). -/
def isResync (t : State) : Bool :=
  decide ((t.edge = 1 ∨ t.edge = -1) ∧ 80000 < t.edgeCountDiff)

/-- The edge just handled was classified as a half unit (lines 87 and 112). -/
def isHalfUnit (t : State) : Bool :=
  decide ((t.edge = 1 ∧ 200 ≤ t.edgeCountDiff ∧ t.edgeCountDiff < 615) ∨
    (t.edge = -1 ∧ 400 ≤ t.edgeCountDiff ∧ t.edgeCountDiff < 850))

/-- The edge just handled was classified as a full unit (lines 91 and 116). -/
def isFullUnit (t : State) : Bool :=
  decide ((t.edge = 1 ∧ 615 ≤ t.edgeCountDiff ∧ t.edgeCountDiff ≤ 1100) ∨
    (t.edge = -1 ∧ 850 ≤ t.edgeCountDiff ∧ t.edgeCountDiff ≤ 1400))

/-- Number of edges classified as half unit among the first `n` samples since
the last resync (or since the start of the stream). -/
def halfCount (file : List Nat) : Nat → Nat
  | 0 => 0
  | n + 1 =>
    if isResync (stateAfter file (n + 1)) then 0
    else if isHalfUnit (stateAfter file (n + 1)) then halfCount file n + 1
    else halfCount file n

/-- State of the reimplementation worded in the spec (sections 4.1 and 9): the
decoder locals together with the write position `pos` of an explicit circular
buffer of length `SMOOTH_WINDOW`. -/
structure Circular where
  st : State
  pos : Nat
deriving DecidableEq

/-- The circular-buffer decoder before the first sample: `pos = 0`, all-zero
buffer. -/
def circularInit : Circular :=
  { st := init, pos := 0 }

/-- One sample of power `p` in the circular-buffer decoder, after the spec's
words: `running_sum += power - buffer[pos]; buffer[pos] = power;
pos = (pos+1) mod W`; slicer, edge detector and timing decoder are those of
the source. -/
def circularStep (p : Int) (c : Circular) : Circular :=
  let runningSum : Int := c.st.runningSum + (p - c.st.buffer.getD c.pos 0)
  let buffer : List Int := c.st.buffer.set c.pos p
  let power : Int := if runningSum ≥ threshold * (SMOOTH_WINDOW : Int) then 1 else 0
  let edge : Int := power - c.st.prevPower
  { st := decodeEdge
      { c.st with
        runningSum := runningSum
        buffer := buffer
        power := power
        edge := edge
        prevPower := power
        dataCounter := c.st.dataCounter + 1 }
    pos := (c.pos + 1) % SMOOTH_WINDOW }

/-- The circular-buffer decoder after the first `n` samples of the file. -/
def circularAfter (file : List Nat) : Nat → Circular
  | 0 => circularInit
  | n + 1 => circularStep (samplePower file (n + 1)) (circularAfter file n)

/-- Rounding of an integer to single precision: 24 significant bits, round to
nearest, ties to even.  It is the value a `float` variable of the source holds
after an operation whose exact result is the integer `x` (magnitudes that
overflow single precision do not occur). -/
def roundF32 (x : Int) : Int :=
  let n : Nat := x.natAbs
  let e : Nat := (Nat.log2 n + 1) - 24
  let q : Nat := n / 2 ^ e
  let r : Nat := n % 2 ^ e
  let q1 : Nat := if 2 ^ e < 2 * r ∨ (2 * r = 2 ^ e ∧ q % 2 = 1) then q + 1 else q
  Int.sign x * ((q1 * 2 ^ e : Nat) : Int)

/-- Lines 50-52 with every `float` result rounded to single precision. -/
def instPowerF32 (raw : List Nat) (j : Nat) : Int :=
  let real : Int := roundF32 (roundF32 (raw.getD (2 * j + 0) 0 : Int) - 127)
  let imag : Int := roundF32 (roundF32 (raw.getD (2 * j + 1) 0 : Int) - 127)
  roundF32 (roundF32 (real * real) + roundF32 (imag * imag))

/-- Lines 50-68 with every `float` result rounded to single precision. -/
def frontEndF32 (raw : List Nat) (j : Nat) (s : State) : State :=
  let p : Int := instPowerF32 raw j
  let dataCounter : Int := s.dataCounter + 1
  let runningSum : Int := roundF32 (s.runningSum + roundF32 (p - s.buffer.getD j 0))
  let buffer : List Int := s.buffer.set j p
  let power : Int :=
    if runningSum ≥ roundF32 (roundF32 threshold * roundF32 (SMOOTH_WINDOW : Int)) then 1 else 0
  let edge : Int := power - s.prevPower
  { s with
    runningSum := runningSum
    buffer := buffer
    power := power
    edge := edge
    prevPower := power
    dataCounter := dataCounter }

/-- The loop body with single-precision rounding. -/
def sampleStepF32 (raw : List Nat) (j : Nat) (s : State) : State :=
  decodeEdge (frontEndF32 raw j s)

/-- State after `n` samples when every `float` result is rounded. -/
def stateAfterF32 (file : List Nat) : Nat → State
  | 0 => init
  | n + 1 =>
    sampleStepF32 (rawBlock file (n / SMOOTH_WINDOW)) (n % SMOOTH_WINDOW) (stateAfterF32 file n)

/-- Two blocks (976 sample pairs): samples 1..102 and 490..591 are `(255, 255)`
(power 32768), all others `(127, 127)` (power 0).  The decoder sees a rising
edge at sample 102, a falling edge at sample 489 (interval 387, rejected) and a
rising edge at sample 591. -/
def noisyFile : List Nat :=
  (List.range 1952).map (fun i => if i < 204 ∨ (978 ≤ i ∧ i < 1182) then 255 else 127)

/-! ## Basic facts about the loop body -/

theorem tmod_two_eq_zero_iff (x : Int) : Int.tmod x 2 = 0 ↔ x % 2 = 0 := by
  constructor
  · intro h
    have := Int.tmod_add_tdiv x 2
    omega
  · intro h
    exact Int.tmod_eq_zero_of_dvd (Int.dvd_of_emod_eq_zero h)

@[simp]
theorem frontEnd_frame (raw : List Nat) (j : Nat) (s : State) :
    (frontEnd raw j s).bits = s.bits ∧ (frontEnd raw j s).prevEdge = s.prevEdge ∧
    (frontEnd raw j s).edgeCountDiff = s.edgeCountDiff ∧
    (frontEnd raw j s).halfTime = s.halfTime ∧ (frontEnd raw j s).addBit = s.addBit ∧
    (frontEnd raw j s).dataCounter = s.dataCounter + 1 :=
  ⟨rfl, rfl, rfl, rfl, rfl, rfl⟩

@[simp]
theorem timing_frame (s : State) :
    (timing s).bits = s.bits ∧ (timing s).runningSum = s.runningSum ∧
    (timing s).buffer = s.buffer ∧ (timing s).power = s.power ∧ (timing s).edge = s.edge ∧
    (timing s).prevPower = s.prevPower ∧ (timing s).dataCounter = s.dataCounter ∧
    (timing s).halfTime = s.halfTime ∧ (timing s).addBit = s.addBit := by
  unfold timing
  split_ifs <;> simp

theorem timing_prevEdge (s : State) :
    (timing s).prevEdge = if s.edge ≠ 0 ∧ s.prevEdge < 0 then s.dataCounter else s.prevEdge := by
  unfold timing
  split_ifs <;> simp_all

theorem timing_edgeCountDiff (s : State) :
    (timing s).edgeCountDiff =
      if s.edge ≠ 0 then s.dataCounter - (timing s).prevEdge else s.edgeCountDiff := by
  unfold timing
  split_ifs <;> simp_all

@[simp]
theorem risingBands_frame (s : State) :
    (risingBands s).bits = s.bits ∧ (risingBands s).runningSum = s.runningSum ∧
    (risingBands s).buffer = s.buffer ∧ (risingBands s).power = s.power ∧
    (risingBands s).edge = s.edge ∧ (risingBands s).prevPower = s.prevPower ∧
    (risingBands s).dataCounter = s.dataCounter ∧
    (risingBands s).edgeCountDiff = s.edgeCountDiff := by
  unfold risingBands
  split_ifs <;> simp

@[simp]
theorem fallingBands_frame (s : State) :
    (fallingBands s).bits = s.bits ∧ (fallingBands s).runningSum = s.runningSum ∧
    (fallingBands s).buffer = s.buffer ∧ (fallingBands s).power = s.power ∧
    (fallingBands s).edge = s.edge ∧ (fallingBands s).prevPower = s.prevPower ∧
    (fallingBands s).dataCounter = s.dataCounter ∧
    (fallingBands s).edgeCountDiff = s.edgeCountDiff := by
  unfold fallingBands
  split_ifs <;> simp

@[simp]
theorem emit_frame (b : Int) (s : State) :
    (emit b s).runningSum = s.runningSum ∧ (emit b s).buffer = s.buffer ∧
    (emit b s).power = s.power ∧ (emit b s).edge = s.edge ∧
    (emit b s).prevPower = s.prevPower ∧ (emit b s).dataCounter = s.dataCounter ∧
    (emit b s).prevEdge = s.prevEdge ∧ (emit b s).edgeCountDiff = s.edgeCountDiff ∧
    (emit b s).halfTime = s.halfTime ∧ (emit b s).addBit = s.addBit := by
  unfold emit
  split_ifs <;> simp

theorem emit_bits (b : Int) (s : State) :
    (emit b s).bits = if s.addBit ≠ 0 ∧ s.halfTime % 2 = 0 then s.bits ++ [b] else s.bits := by
  unfold emit
  simp only [tmod_two_eq_zero_iff]
  split_ifs <;> rfl

@[simp]
theorem decodeEdge_frame (s : State) :
    (decodeEdge s).runningSum = s.runningSum ∧ (decodeEdge s).buffer = s.buffer ∧
    (decodeEdge s).power = s.power ∧ (decodeEdge s).edge = s.edge ∧
    (decodeEdge s).prevPower = s.prevPower ∧ (decodeEdge s).dataCounter = s.dataCounter := by
  unfold decodeEdge
  simp only [timing_frame]
  split_ifs <;> simp [risingEdge, fallingEdge]

theorem decodeEdge_no_edge (s : State) (h : s.edge = 0) : decodeEdge s = s := by
  simp [decodeEdge, timing, h]

theorem decodeEdge_rising (s : State) (h : s.edge = 1) :
    decodeEdge s = emit 1 (risingBands (timing s)) := by
  simp [decodeEdge, risingEdge, h]

theorem decodeEdge_falling (s : State) (h : s.edge = -1) :
    decodeEdge s = emit 0 (fallingBands (timing s)) := by
  simp [decodeEdge, fallingEdge, h]

theorem risingBands_fields (s : State) :
    ((risingBands s).prevEdge =
      if 80000 < s.edgeCountDiff ∨ (200 ≤ s.edgeCountDiff ∧ s.edgeCountDiff ≤ 1100)
      then s.dataCounter else s.prevEdge) ∧
    ((risingBands s).halfTime =
      if 80000 < s.edgeCountDiff then 0
      else if 200 ≤ s.edgeCountDiff ∧ s.edgeCountDiff < 615 then s.halfTime + 1
      else if 615 ≤ s.edgeCountDiff ∧ s.edgeCountDiff ≤ 1100 then s.halfTime + 2
      else s.halfTime) ∧
    ((risingBands s).addBit =
      if 80000 < s.edgeCountDiff ∨ (200 ≤ s.edgeCountDiff ∧ s.edgeCountDiff ≤ 1100)
      then 1 else 0) := by
  unfold risingBands
  refine ⟨?_, ?_, ?_⟩ <;> split_ifs <;> first | rfl | omega

theorem fallingBands_fields (s : State) :
    ((fallingBands s).prevEdge =
      if 80000 < s.edgeCountDiff ∨ (400 ≤ s.edgeCountDiff ∧ s.edgeCountDiff ≤ 1400)
      then s.dataCounter else s.prevEdge) ∧
    ((fallingBands s).halfTime =
      if 80000 < s.edgeCountDiff then 0
      else if 400 ≤ s.edgeCountDiff ∧ s.edgeCountDiff < 850 then s.halfTime + 1
      else if 850 ≤ s.edgeCountDiff ∧ s.edgeCountDiff ≤ 1400 then s.halfTime + 2
      else s.halfTime) ∧
    ((fallingBands s).addBit =
      if 80000 < s.edgeCountDiff ∨ (400 ≤ s.edgeCountDiff ∧ s.edgeCountDiff ≤ 1400)
      then 1 else 0) := by
  unfold fallingBands
  refine ⟨?_, ?_, ?_⟩ <;> split_ifs <;> first | rfl | omega

theorem timing_synced (s : State) (hset : 0 ≤ s.prevEdge) (he : s.edge ≠ 0) :
    (timing s).prevEdge = s.prevEdge ∧
    (timing s).edgeCountDiff = s.dataCounter - s.prevEdge := by
  have h1 : ¬ s.prevEdge < 0 := by omega
  simp [timing_edgeCountDiff, timing_prevEdge, he, h1]

theorem timing_unsynced (s : State) (hunset : s.prevEdge < 0) (he : s.edge ≠ 0) :
    (timing s).prevEdge = s.dataCounter ∧ (timing s).edgeCountDiff = 0 := by
  simp [timing_edgeCountDiff, timing_prevEdge, he, hunset]

theorem decodeEdge_edgeCountDiff (s : State) :
    (decodeEdge s).edgeCountDiff = (timing s).edgeCountDiff := by
  unfold decodeEdge
  simp only [timing_frame]
  split_ifs <;> simp [risingEdge, fallingEdge]

theorem newBits_rising (s : State) (he : s.edge = 1) :
    newBits s =
      if (risingBands (timing s)).addBit ≠ 0 ∧ (risingBands (timing s)).halfTime % 2 = 0
      then [1] else [] := by
  unfold newBits
  rw [decodeEdge_rising s he, emit_bits]
  simp only [risingBands_frame, timing_frame]
  split_ifs <;> simp

theorem newBits_falling (s : State) (he : s.edge = -1) :
    newBits s =
      if (fallingBands (timing s)).addBit ≠ 0 ∧ (fallingBands (timing s)).halfTime % 2 = 0
      then [0] else [] := by
  unfold newBits
  rw [decodeEdge_falling s he, emit_bits]
  simp only [fallingBands_frame, timing_frame]
  split_ifs <;> simp

theorem decodeEdge_other (s : State) (h1 : s.edge ≠ 1) (h2 : s.edge ≠ -1) :
    decodeEdge s = timing s := by
  simp [decodeEdge, h1, h2]

theorem newBits_other (s : State) (h1 : s.edge ≠ 1) (h2 : s.edge ≠ -1) : newBits s = [] := by
  unfold newBits
  rw [decodeEdge_other s h1 h2]
  simp

theorem decodeEdge_bits_eq (s : State) : (decodeEdge s).bits = s.bits ++ newBits s := by
  by_cases h1 : s.edge = 1
  · rw [newBits_rising s h1, decodeEdge_rising s h1, emit_bits]
    simp only [risingBands_frame, timing_frame]
    split_ifs <;> simp
  by_cases h2 : s.edge = -1
  · rw [newBits_falling s h2, decodeEdge_falling s h2, emit_bits]
    simp only [fallingBands_frame, timing_frame]
    split_ifs <;> simp
  · rw [newBits_other s h1 h2, decodeEdge_other s h1 h2]
    simp

/-- The effect of the timing decoder on `prevEdge`, `halfTime`, the interval
and the appended bits depends only on `edge`, `dataCounter`, `prevEdge` and
`halfTime`. -/
theorem decodeEdge_congr (a b : State) (h1 : a.edge = b.edge)
    (h2 : a.dataCounter = b.dataCounter) (h3 : a.prevEdge = b.prevEdge)
    (h4 : a.halfTime = b.halfTime) :
    (decodeEdge a).prevEdge = (decodeEdge b).prevEdge ∧
    (decodeEdge a).halfTime = (decodeEdge b).halfTime ∧
    (a.edge ≠ 0 → (decodeEdge a).edgeCountDiff = (decodeEdge b).edgeCountDiff) ∧
    newBits a = newBits b := by
  have hp : (timing a).prevEdge = (timing b).prevEdge := by
    simp only [timing_prevEdge, h1, h2, h3]
  have hd : a.edge ≠ 0 → (timing a).edgeCountDiff = (timing b).edgeCountDiff := by
    intro h
    have h' : b.edge ≠ 0 := h1 ▸ h
    rw [timing_edgeCountDiff, timing_edgeCountDiff, hp, h2]
    simp [h, h']
  refine ⟨?_, ?_, ?_, ?_⟩
  · by_cases e1 : a.edge = 1
    · have hd' := hd (by omega)
      rw [decodeEdge_rising a e1, decodeEdge_rising b (h1 ▸ e1)]
      simp only [emit_frame, risingBands_fields, timing_frame, hp, hd', h2]
    by_cases e2 : a.edge = -1
    · have hd' := hd (by omega)
      rw [decodeEdge_falling a e2, decodeEdge_falling b (h1 ▸ e2)]
      simp only [emit_frame, fallingBands_fields, timing_frame, hp, hd', h2]
    · rw [decodeEdge_other a e1 e2, decodeEdge_other b (h1 ▸ e1) (h1 ▸ e2), hp]
  · by_cases e1 : a.edge = 1
    · have hd' := hd (by omega)
      rw [decodeEdge_rising a e1, decodeEdge_rising b (h1 ▸ e1)]
      simp only [emit_frame, risingBands_fields, timing_frame, hp, hd', h4]
    by_cases e2 : a.edge = -1
    · have hd' := hd (by omega)
      rw [decodeEdge_falling a e2, decodeEdge_falling b (h1 ▸ e2)]
      simp only [emit_frame, fallingBands_fields, timing_frame, hp, hd', h4]
    · rw [decodeEdge_other a e1 e2, decodeEdge_other b (h1 ▸ e1) (h1 ▸ e2)]
      simp only [timing_frame, h4]
  · intro h
    rw [decodeEdge_edgeCountDiff, decodeEdge_edgeCountDiff, hd h]
  · by_cases e1 : a.edge = 1
    · have hd' := hd (by omega)
      rw [newBits_rising a e1, newBits_rising b (h1 ▸ e1)]
      simp only [risingBands_fields, timing_frame, hd', h4]
    by_cases e2 : a.edge = -1
    · have hd' := hd (by omega)
      rw [newBits_falling a e2, newBits_falling b (h1 ▸ e2)]
      simp only [fallingBands_fields, timing_frame, hd', h4]
    · rw [newBits_other a e1 e2, newBits_other b (h1 ▸ e1) (h1 ▸ e2)]

/-! ## The timing decoder, one edge at a time -/

/-- C1: band table.  For an edge seen at sample `dataCounter` while `prevEdge`
is set, with `d = dataCounter - prevEdge`: a rising edge resyncs above 80000
(`prevEdge = now`, `halfTime = 0`), is rejected for `d < 200` or
`1100 < d <= 80000` (both unchanged), counts one half unit for `200 <= d < 615`
and two for `615 <= d <= 1100` (both with `prevEdge = now`); a falling edge
does the same with 400 / 850 / 1400; and every `d` lies in exactly one of the
four classes of each direction. -/
theorem decodeEdge_band_table (s : State) (d : Int) (hset : 0 ≤ s.prevEdge)
    (hd : d = s.dataCounter - s.prevEdge) :
    (s.edge = 1 →
      (80000 < d → (decodeEdge s).prevEdge = s.dataCounter ∧ (decodeEdge s).halfTime = 0) ∧
      (d < 200 ∨ (1100 < d ∧ d ≤ 80000) →
        (decodeEdge s).prevEdge = s.prevEdge ∧ (decodeEdge s).halfTime = s.halfTime) ∧
      (200 ≤ d ∧ d < 615 →
        (decodeEdge s).prevEdge = s.dataCounter ∧ (decodeEdge s).halfTime = s.halfTime + 1) ∧
      (615 ≤ d ∧ d ≤ 1100 →
        (decodeEdge s).prevEdge = s.dataCounter ∧ (decodeEdge s).halfTime = s.halfTime + 2)) ∧
    (s.edge = -1 →
      (80000 < d → (decodeEdge s).prevEdge = s.dataCounter ∧ (decodeEdge s).halfTime = 0) ∧
      (d < 400 ∨ (1400 < d ∧ d ≤ 80000) →
        (decodeEdge s).prevEdge = s.prevEdge ∧ (decodeEdge s).halfTime = s.halfTime) ∧
      (400 ≤ d ∧ d < 850 →
        (decodeEdge s).prevEdge = s.dataCounter ∧ (decodeEdge s).halfTime = s.halfTime + 1) ∧
      (850 ≤ d ∧ d ≤ 1400 →
        (decodeEdge s).prevEdge = s.dataCounter ∧ (decodeEdge s).halfTime = s.halfTime + 2)) ∧
    ExactlyOne (80000 < d) (d < 200 ∨ (1100 < d ∧ d ≤ 80000)) (200 ≤ d ∧ d < 615)
      (615 ≤ d ∧ d ≤ 1100) ∧
    ExactlyOne (80000 < d) (d < 400 ∨ (1400 < d ∧ d ≤ 80000)) (400 ≤ d ∧ d < 850)
      (850 ≤ d ∧ d ≤ 1400) := by
  refine ⟨fun he => ?_, fun he => ?_, ?_, ?_⟩
  · obtain ⟨hp, hdiff⟩ := timing_synced s hset (by omega)
    rw [decodeEdge_rising s he]
    simp only [emit_frame, risingBands_fields, timing_frame, hp, hdiff, ← hd]
    refine ⟨?_, ?_, ?_, ?_⟩ <;> intro h <;> split_ifs <;> omega
  · obtain ⟨hp, hdiff⟩ := timing_synced s hset (by omega)
    rw [decodeEdge_falling s he]
    simp only [emit_frame, fallingBands_fields, timing_frame, hp, hdiff, ← hd]
    refine ⟨?_, ?_, ?_, ?_⟩ <;> intro h <;> split_ifs <;> omega
  · unfold ExactlyOne
    omega
  · unfold ExactlyOne
    omega

/-- Witness for C1: a rising edge at sample 1300 with the reference edge at
sample 1000 (interval 300) moves the reference to 1300 and adds one half unit. -/
theorem decodeEdge_band_table_witness :
    (0 : Int) ≤ (atEdge 1 1300 1000 4).prevEdge ∧
    (300 : Int) = (atEdge 1 1300 1000 4).dataCounter - (atEdge 1 1300 1000 4).prevEdge ∧
    (decodeEdge (atEdge 1 1300 1000 4)).prevEdge = 1300 ∧
    (decodeEdge (atEdge 1 1300 1000 4)).halfTime = 5 :=
  ⟨by decide, by decide,
    ((decodeEdge_band_table (atEdge 1 1300 1000 4) 300 (by decide) (by decide)).1
      (by decide)).2.2.1 ⟨by decide, by decide⟩⟩

/-- C2: emission rule.  With `d` the interval the decoder computed for the
edge: an accepted rising edge (`d > 80000` or `200 <= d <= 1100`) appends
exactly the bit `1` when `halfTime` after the update is even and nothing when
it is odd; an accepted falling edge (`d > 80000` or `400 <= d <= 1400`) does
the same with the bit `0`; no sample appends more than one bit, and a sample
without edge appends nothing. -/
theorem decodeEdge_emission_rule (s : State) (d : Int) (hd : d = (timing s).edgeCountDiff) :
    (s.edge = 1 → 80000 < d ∨ (200 ≤ d ∧ d ≤ 1100) →
      ((decodeEdge s).halfTime % 2 = 0 → (decodeEdge s).bits = s.bits ++ [1]) ∧
      ((decodeEdge s).halfTime % 2 = 1 → (decodeEdge s).bits = s.bits)) ∧
    (s.edge = -1 → 80000 < d ∨ (400 ≤ d ∧ d ≤ 1400) →
      ((decodeEdge s).halfTime % 2 = 0 → (decodeEdge s).bits = s.bits ++ [0]) ∧
      ((decodeEdge s).halfTime % 2 = 1 → (decodeEdge s).bits = s.bits)) ∧
    (∀ (raw : List Nat) (j : Nat) (t : State),
      (sampleStep raw j t).bits = t.bits ∨ ∃ b, (sampleStep raw j t).bits = t.bits ++ [b]) ∧
    (∀ (raw : List Nat) (j : Nat) (t : State),
      (frontEnd raw j t).edge = 0 → (sampleStep raw j t).bits = t.bits) := by
  refine ⟨fun he hacc => ?_, fun he hacc => ?_, ?_, ?_⟩
  · have hadd : (risingBands (timing s)).addBit = 1 := by
      rw [(risingBands_fields (timing s)).2.2, ← hd, if_pos hacc]
    rw [decodeEdge_rising s he, emit_bits]
    simp only [emit_frame, risingBands_frame, timing_frame, hadd]
    constructor
    · intro h
      simp [h]
    · intro h
      have h' : ¬ (risingBands (timing s)).halfTime % 2 = 0 := by omega
      simp [h']
  · have hadd : (fallingBands (timing s)).addBit = 1 := by
      rw [(fallingBands_fields (timing s)).2.2, ← hd, if_pos hacc]
    rw [decodeEdge_falling s he, emit_bits]
    simp only [emit_frame, fallingBands_frame, timing_frame, hadd]
    constructor
    · intro h
      simp [h]
    · intro h
      have h' : ¬ (fallingBands (timing s)).halfTime % 2 = 0 := by omega
      simp [h']
  · intro raw j t
    unfold sampleStep
    by_cases h1 : (frontEnd raw j t).edge = 1
    · rw [decodeEdge_rising _ h1, emit_bits]
      simp only [risingBands_frame, timing_frame, frontEnd_frame]
      split_ifs
      · exact Or.inr ⟨1, rfl⟩
      · exact Or.inl rfl
    by_cases h2 : (frontEnd raw j t).edge = -1
    · rw [decodeEdge_falling _ h2, emit_bits]
      simp only [fallingBands_frame, timing_frame, frontEnd_frame]
      split_ifs
      · exact Or.inr ⟨0, rfl⟩
      · exact Or.inl rfl
    · rw [decodeEdge_other _ h1 h2]
      simp
  · intro raw j t h
    unfold sampleStep
    rw [decodeEdge_no_edge _ h]
    simp

/-- Witness for C2: a rising edge at interval 700 (full unit) on an even
`halfTime` appends the bit `1`. -/
theorem decodeEdge_emission_rule_witness :
    (700 : Int) = (timing (atEdge 1 1700 1000 4)).edgeCountDiff ∧
    (decodeEdge (atEdge 1 1700 1000 4)).bits = (atEdge 1 1700 1000 4).bits ++ [1] :=
  ⟨by decide,
    ((decodeEdge_emission_rule (atEdge 1 1700 1000 4) 700 (by decide)).1 (by decide)
      (by decide)).1 (by decide)⟩

/-- C4: noise immunity.  An edge whose interval lies in a reject band
(rising: `d < 200` or `1100 < d <= 80000`; falling: `d < 400` or
`1400 < d <= 80000`) leaves `prevEdge` and `halfTime` unchanged and appends no
bit, and the interval of any later edge is still measured from the unchanged
`prevEdge`. -/
theorem decodeEdge_reject_band (s : State) (d : Int) (hset : 0 ≤ s.prevEdge)
    (hd : d = s.dataCounter - s.prevEdge)
    (hrej : (s.edge = 1 ∧ (d < 200 ∨ (1100 < d ∧ d ≤ 80000))) ∨
      (s.edge = -1 ∧ (d < 400 ∨ (1400 < d ∧ d ≤ 80000)))) :
    (decodeEdge s).prevEdge = s.prevEdge ∧
    (decodeEdge s).halfTime = s.halfTime ∧
    (decodeEdge s).bits = s.bits ∧
    ∀ e now : Int, e ≠ 0 →
      (nextEdge (decodeEdge s) e now).edgeCountDiff = now - s.prevEdge := by
  have hne : s.edge ≠ 0 := by
    rcases hrej with h | h <;> omega
  obtain ⟨hp, hdiff⟩ := timing_synced s hset hne
  have key : (decodeEdge s).prevEdge = s.prevEdge ∧ (decodeEdge s).halfTime = s.halfTime ∧
      (decodeEdge s).bits = s.bits := by
    rcases hrej with ⟨he, h⟩ | ⟨he, h⟩
    · rw [decodeEdge_rising s he, emit_bits]
      simp only [emit_frame, risingBands_fields, risingBands_frame, timing_frame, hp, hdiff,
        ← hd]
      refine ⟨?_, ?_, ?_⟩ <;> split_ifs <;> first | rfl | omega
    · rw [decodeEdge_falling s he, emit_bits]
      simp only [emit_frame, fallingBands_fields, fallingBands_frame, timing_frame, hp, hdiff,
        ← hd]
      refine ⟨?_, ?_, ?_⟩ <;> split_ifs <;> first | rfl | omega
  refine ⟨key.1, key.2.1, key.2.2, ?_⟩
  intro e now he
  unfold nextEdge
  rw [decodeEdge_edgeCountDiff]
  have h := timing_synced { decodeEdge s with edge := e, dataCounter := now }
    (by simpa [key.1] using hset) he
  rw [h.2]
  simp [key.1]

/-- Witness for C4: a rising edge at interval 150. -/
theorem decodeEdge_reject_band_witness :
    (decodeEdge (atEdge 1 1150 1000 3)).prevEdge = 1000 ∧
    (decodeEdge (atEdge 1 1150 1000 3)).halfTime = 3 ∧
    (decodeEdge (atEdge 1 1150 1000 3)).bits = [] ∧
    (nextEdge (decodeEdge (atEdge 1 1150 1000 3)) (-1) 1500).edgeCountDiff = 500 :=
  have h := decodeEdge_reject_band (atEdge 1 1150 1000 3) 150 (by decide) (by decide)
    (Or.inl ⟨by decide, Or.inl (by decide)⟩)
  ⟨h.1, h.2.1, h.2.2.1, h.2.2.2 (-1) 1500 (by decide)⟩

/-- C5: resync recovery.  For either direction and any `halfTime`, an edge at
interval above 80000 sets `halfTime` to 0 and `prevEdge` to the current
`dataCounter`; these are the values a fresh decoder holds after its first
(reference) edge at that sample, and every following edge event is handled
from the two states alike: same `prevEdge`, `halfTime`, interval and appended
bits. -/
theorem decodeEdge_resync (s : State) (d : Int) (hset : 0 ≤ s.prevEdge)
    (hd : d = s.dataCounter - s.prevEdge) (he : s.edge = 1 ∨ s.edge = -1)
    (hlong : 80000 < d) :
    (decodeEdge s).halfTime = 0 ∧
    (decodeEdge s).prevEdge = s.dataCounter ∧
    (decodeEdge (atEdge s.edge s.dataCounter (-1) 0)).halfTime = 0 ∧
    (decodeEdge (atEdge s.edge s.dataCounter (-1) 0)).prevEdge = s.dataCounter ∧
    ∀ e now : Int,
      (nextEdge (decodeEdge s) e now).prevEdge =
        (nextEdge (decodeEdge (atEdge s.edge s.dataCounter (-1) 0)) e now).prevEdge ∧
      (nextEdge (decodeEdge s) e now).halfTime =
        (nextEdge (decodeEdge (atEdge s.edge s.dataCounter (-1) 0)) e now).halfTime ∧
      (e ≠ 0 → (nextEdge (decodeEdge s) e now).edgeCountDiff =
        (nextEdge (decodeEdge (atEdge s.edge s.dataCounter (-1) 0)) e now).edgeCountDiff) ∧
      newBits { decodeEdge s with edge := e, dataCounter := now } =
        newBits { decodeEdge (atEdge s.edge s.dataCounter (-1) 0) with
          edge := e, dataCounter := now } := by
  have hne : s.edge ≠ 0 := by omega
  obtain ⟨hp, hdiff⟩ := timing_synced s hset hne
  have hr : (decodeEdge s).halfTime = 0 ∧ (decodeEdge s).prevEdge = s.dataCounter := by
    rcases he with he | he
    · rw [decodeEdge_rising s he]
      simp only [emit_frame, risingBands_fields, timing_frame, hp, hdiff, ← hd]
      constructor <;> split_ifs <;> first | rfl | omega
    · rw [decodeEdge_falling s he]
      simp only [emit_frame, fallingBands_fields, timing_frame, hp, hdiff, ← hd]
      constructor <;> split_ifs <;> first | rfl | omega
  have hfe : (atEdge s.edge s.dataCounter (-1) 0).edge = s.edge := rfl
  have hfd : (atEdge s.edge s.dataCounter (-1) 0).dataCounter = s.dataCounter := rfl
  have hfh : (atEdge s.edge s.dataCounter (-1) 0).halfTime = 0 := rfl
  obtain ⟨fp, fdiff⟩ := timing_unsynced (atEdge s.edge s.dataCounter (-1) 0)
    (show (-1 : Int) < 0 by decide) (by rw [hfe]; exact hne)
  have hf : (decodeEdge (atEdge s.edge s.dataCounter (-1) 0)).halfTime = 0 ∧
      (decodeEdge (atEdge s.edge s.dataCounter (-1) 0)).prevEdge = s.dataCounter := by
    rcases he with he | he
    · rw [decodeEdge_rising _ (hfe.trans he)]
      simp only [emit_frame, risingBands_fields, timing_frame, fp, fdiff, hfd, hfh]
      constructor <;> split_ifs <;> first | rfl | omega
    · rw [decodeEdge_falling _ (hfe.trans he)]
      simp only [emit_frame, fallingBands_fields, timing_frame, fp, fdiff, hfd, hfh]
      constructor <;> split_ifs <;> first | rfl | omega
  refine ⟨hr.1, hr.2, hf.1, hf.2, ?_⟩
  intro e now
  unfold nextEdge
  exact decodeEdge_congr _ _ rfl rfl
    (by show (decodeEdge s).prevEdge = _; rw [hr.2, hf.2])
    (by show (decodeEdge s).halfTime = _; rw [hr.1, hf.1])

/-- Witness for C5: a falling edge 90000 samples after the reference, on an
odd `halfTime`. -/
theorem decodeEdge_resync_witness :
    (decodeEdge (atEdge (-1) 91000 1000 3)).halfTime = 0 ∧
    (decodeEdge (atEdge (-1) 91000 1000 3)).prevEdge = 91000 :=
  have h := decodeEdge_resync (atEdge (-1) 91000 1000 3) 90000 (by decide) (by decide)
    (Or.inr (by decide)) (by decide)
  ⟨h.1, h.2.1⟩

/-- C9: bit emission parity.  From a decoder with `halfTime = 0` and `prevEdge`
set, a rising edge at interval in `[200, 615)` appends nothing, and a second
rising edge event at an interval in `[200, 615)` after it appends exactly the
bit `1`; in general an edge that leaves `halfTime` odd appends nothing. -/
theorem decodeEdge_two_half_units (s : State) (now2 : Int) (hset : 0 ≤ s.prevEdge)
    (hzero : s.halfTime = 0) (he : s.edge = 1)
    (h1 : 200 ≤ s.dataCounter - s.prevEdge ∧ s.dataCounter - s.prevEdge < 615)
    (h2 : 200 ≤ now2 - s.dataCounter ∧ now2 - s.dataCounter < 615) :
    (decodeEdge s).bits = s.bits ∧
    (nextEdge (decodeEdge s) 1 now2).bits = s.bits ++ [1] ∧
    ∀ t : State, (decodeEdge t).halfTime % 2 = 1 → (decodeEdge t).bits = t.bits := by
  obtain ⟨hp, hdiff⟩ := timing_synced s hset (by omega)
  have hs : (decodeEdge s).bits = s.bits ∧ (decodeEdge s).prevEdge = s.dataCounter ∧
      (decodeEdge s).halfTime = 1 := by
    rw [decodeEdge_rising s he, emit_bits]
    simp only [emit_frame, risingBands_fields, risingBands_frame, timing_frame, hp, hdiff, hzero]
    refine ⟨?_, ?_, ?_⟩ <;> split_ifs <;> first | rfl | omega
  refine ⟨hs.1, ?_, ?_⟩
  · unfold nextEdge
    have hset2 : (0 : Int) ≤
        ({ decodeEdge s with edge := 1, dataCounter := now2 } : State).prevEdge := by
      show 0 ≤ (decodeEdge s).prevEdge
      omega
    obtain ⟨hp2, hdiff2⟩ := timing_synced { decodeEdge s with edge := 1, dataCounter := now2 }
      hset2 (show (1 : Int) ≠ 0 by decide)
    rw [decodeEdge_rising _ rfl, emit_bits]
    simp only [emit_frame, risingBands_fields, risingBands_frame, timing_frame, hp2, hdiff2]
    simp only [hs.1, hs.2.1, hs.2.2]
    split_ifs <;> first | rfl | omega
  · intro t ht
    by_cases e1 : t.edge = 1
    · rw [decodeEdge_rising t e1] at ht ⊢
      rw [emit_bits]
      simp only [emit_frame] at ht
      simp only [risingBands_frame, timing_frame]
      split_ifs <;> first | rfl | omega
    by_cases e2 : t.edge = -1
    · rw [decodeEdge_falling t e2] at ht ⊢
      rw [emit_bits]
      simp only [emit_frame] at ht
      simp only [fallingBands_frame, timing_frame]
      split_ifs <;> first | rfl | omega
    · rw [decodeEdge_other t e1 e2]
      simp

/-- Witness for C9: rising edge events at samples 1300 and 1600 after a
reference edge at sample 1000 (intervals 300 and 300). -/
theorem decodeEdge_two_half_units_witness :
    (decodeEdge (atEdge 1 1300 1000 0)).bits = [] ∧
    (nextEdge (decodeEdge (atEdge 1 1300 1000 0)) 1 1600).bits = [1] :=
  have h := decodeEdge_two_half_units (atEdge 1 1300 1000 0) 1600 (by decide) (by decide)
    (by decide) (by decide) (by decide)
  ⟨h.1, h.2.1⟩

/-! ## The run: sample counter and the two loops -/

theorem SMOOTH_WINDOW_eq : SMOOTH_WINDOW = 488 := rfl

theorem stateAfter_succ (file : List Nat) (n : Nat) :
    stateAfter file (n + 1) =
      sampleStep (rawBlock file (n / SMOOTH_WINDOW)) (n % SMOOTH_WINDOW) (stateAfter file n) :=
  rfl

theorem sampleStep_dataCounter (raw : List Nat) (j : Nat) (s : State) :
    (sampleStep raw j s).dataCounter = s.dataCounter + 1 := by
  simp [sampleStep]

theorem stateAfter_dataCounter (file : List Nat) (n : Nat) :
    (stateAfter file n).dataCounter = n := by
  induction n with
  | zero => rfl
  | succ n ih =>
    rw [stateAfter_succ, sampleStep_dataCounter, ih]
    push_cast
    rfl

theorem foldl_block (file : List Nat) (k m : Nat) (hm : m ≤ SMOOTH_WINDOW) :
    (List.range m).foldl (fun st j => sampleStep (rawBlock file k) j st)
      (stateAfter file (SMOOTH_WINDOW * k)) = stateAfter file (SMOOTH_WINDOW * k + m) := by
  induction m with
  | zero => rfl
  | succ m ih =>
    have hm' : m < SMOOTH_WINDOW := hm
    rw [List.range_succ, List.foldl_append, ih (Nat.le_of_lt hm')]
    have hdiv : (SMOOTH_WINDOW * k + m) / SMOOTH_WINDOW = k := by
      rw [SMOOTH_WINDOW_eq] at hm' ⊢
      omega
    have hmod : (SMOOTH_WINDOW * k + m) % SMOOTH_WINDOW = m := by
      rw [SMOOTH_WINDOW_eq] at hm' ⊢
      omega
    show sampleStep (rawBlock file k) m (stateAfter file (SMOOTH_WINDOW * k + m)) =
      stateAfter file (SMOOTH_WINDOW * k + m + 1)
    rw [stateAfter_succ, hdiv, hmod]

theorem processBlock_stateAfter (file : List Nat) (k : Nat) :
    processBlock (rawBlock file k) (stateAfter file (SMOOTH_WINDOW * k)) =
      stateAfter file (SMOOTH_WINDOW * (k + 1)) := by
  unfold processBlock
  rw [foldl_block file k SMOOTH_WINDOW (Nat.le_refl _), Nat.mul_succ]

theorem readLoop_stateAfter (file : List Nat) (fuel k : Nat)
    (hk : k ≤ file.length / (2 * SMOOTH_WINDOW))
    (hfuel : file.length / (2 * SMOOTH_WINDOW) - k ≤ fuel) :
    readLoop fuel (file.drop (k * (2 * SMOOTH_WINDOW))) (stateAfter file (SMOOTH_WINDOW * k)) =
      stateAfter file (numSamples file) := by
  induction fuel generalizing k with
  | zero =>
    have : k = file.length / (2 * SMOOTH_WINDOW) := by omega
    rw [readLoop, numSamples, ← this]
  | succ fuel ih =>
    rw [readLoop]
    have hlen : (file.drop (k * (2 * SMOOTH_WINDOW))).length =
        file.length - k * (2 * SMOOTH_WINDOW) := List.length_drop _ _
    split_ifs with h
    · have : k = file.length / (2 * SMOOTH_WINDOW) := by
        rw [hlen] at h
        rw [SMOOTH_WINDOW_eq] at h hk ⊢
        omega
      rw [numSamples, ← this]
    · have hk' : k + 1 ≤ file.length / (2 * SMOOTH_WINDOW) := by
        rw [hlen] at h
        rw [SMOOTH_WINDOW_eq] at h hk ⊢
        omega
      have hdrop : (file.drop (k * (2 * SMOOTH_WINDOW))).drop (2 * SMOOTH_WINDOW) =
          file.drop ((k + 1) * (2 * SMOOTH_WINDOW)) := by
        rw [List.drop_drop, Nat.add_mul k 1, Nat.one_mul]
      have htake : (file.drop (k * (2 * SMOOTH_WINDOW))).take (2 * SMOOTH_WINDOW) =
          rawBlock file k := rfl
      rw [hdrop, htake, processBlock_stateAfter]
      exact ih (k + 1) hk' (by omega)

/-- The bits `readFile` returns are the bits held after the last sample of the
last whole block; in particular the loop model never runs out of iterations. -/
theorem readFile_eq_stateAfter (file : List Nat) :
    readFile file = (stateAfter file (numSamples file)).bits := by
  unfold readFile
  have h := readLoop_stateAfter file file.length 0 (Nat.zero_le _)
    (by rw [SMOOTH_WINDOW_eq]; omega)
  simp only [Nat.zero_mul, List.drop_zero, Nat.mul_zero] at h
  have h0 : stateAfter file 0 = init := rfl
  rw [h0] at h
  rw [h]

theorem frontEnd_power (raw : List Nat) (j : Nat) (s : State) :
    (frontEnd raw j s).power =
      if (frontEnd raw j s).runningSum ≥ 3318400 then 1 else 0 := by
  unfold frontEnd
  simp only [threshold, SMOOTH_WINDOW_eq]
  rfl

theorem frontEnd_edge (raw : List Nat) (j : Nat) (s : State) :
    (frontEnd raw j s).edge = (frontEnd raw j s).power - s.prevPower ∧
    (frontEnd raw j s).prevPower = (frontEnd raw j s).power :=
  ⟨rfl, rfl⟩

theorem frontEnd_runningSum (raw : List Nat) (j : Nat) (s : State) :
    (frontEnd raw j s).runningSum = s.runningSum + (instPower raw j - s.buffer.getD j 0) ∧
    (frontEnd raw j s).buffer = s.buffer.set j (instPower raw j) :=
  ⟨rfl, rfl⟩

theorem decodeEdge_prevEdge_cases (s : State) :
    (decodeEdge s).prevEdge = s.prevEdge ∨
      (s.edge ≠ 0 ∧ (decodeEdge s).prevEdge = s.dataCounter) := by
  by_cases h0 : s.edge = 0
  · rw [decodeEdge_no_edge s h0]
    exact Or.inl rfl
  have ht : (timing s).prevEdge = s.prevEdge ∨ (timing s).prevEdge = s.dataCounter := by
    rw [timing_prevEdge]
    split_ifs
    · exact Or.inr rfl
    · exact Or.inl rfl
  by_cases h1 : s.edge = 1
  · rw [decodeEdge_rising s h1]
    simp only [emit_frame, risingBands_fields, timing_frame]
    split_ifs
    · exact Or.inr ⟨h0, rfl⟩
    · rcases ht with h | h
      · exact Or.inl h
      · exact Or.inr ⟨h0, h⟩
  by_cases h2 : s.edge = -1
  · rw [decodeEdge_falling s h2]
    simp only [emit_frame, fallingBands_fields, timing_frame]
    split_ifs
    · exact Or.inr ⟨h0, rfl⟩
    · rcases ht with h | h
      · exact Or.inl h
      · exact Or.inr ⟨h0, h⟩
  · rw [decodeEdge_other s h1 h2]
    rcases ht with h | h
    · exact Or.inl h
    · exact Or.inr ⟨h0, h⟩

/-- The first edge met by an unsynced decoder only arms `prevEdge`. -/
theorem decodeEdge_unsynced (s : State) (hunset : s.prevEdge < 0) (he : s.edge ≠ 0) :
    (decodeEdge s).prevEdge = s.dataCounter ∧
    (decodeEdge s).halfTime = s.halfTime ∧
    (decodeEdge s).bits = s.bits := by
  obtain ⟨hp, hdiff⟩ := timing_unsynced s hunset he
  by_cases h1 : s.edge = 1
  · rw [decodeEdge_rising s h1, emit_bits]
    simp only [emit_frame, risingBands_fields, risingBands_frame, timing_frame, hp, hdiff]
    refine ⟨?_, ?_, ?_⟩ <;> split_ifs <;> first | rfl | omega
  by_cases h2 : s.edge = -1
  · rw [decodeEdge_falling s h2, emit_bits]
    simp only [emit_frame, fallingBands_fields, fallingBands_frame, timing_frame, hp, hdiff]
    refine ⟨?_, ?_, ?_⟩ <;> split_ifs <;> first | rfl | omega
  · rw [decodeEdge_other s h1 h2]
    simp [hp]

/-- While no edge has been seen the decoder still holds its initial values. -/
theorem stateAfter_unsynced (file : List Nat) (n : Nat)
    (h : (stateAfter file n).prevEdge < 0) :
    (stateAfter file n).halfTime = 0 ∧ (stateAfter file n).bits = [] := by
  induction n with
  | zero => exact ⟨rfl, rfl⟩
  | succ n ih =>
    rw [stateAfter_succ, sampleStep] at h ⊢
    generalize hf : frontEnd (rawBlock file (n / SMOOTH_WINDOW)) (n % SMOOTH_WINDOW)
      (stateAfter file n) = f at h ⊢
    have hfp : f.prevEdge = (stateAfter file n).prevEdge := by rw [← hf]; simp
    have hfh : f.halfTime = (stateAfter file n).halfTime := by rw [← hf]; simp
    have hfb : f.bits = (stateAfter file n).bits := by rw [← hf]; simp
    have hfd : f.dataCounter = n + 1 := by
      rw [← hf]
      simp [stateAfter_dataCounter]
    rcases decodeEdge_prevEdge_cases f with hc | ⟨_, hc⟩
    · rw [hc, hfp] at h
      obtain ⟨i1, i2⟩ := ih h
      by_cases h0 : f.edge = 0
      · rw [decodeEdge_no_edge f h0, hfh, hfb]
        exact ⟨i1, i2⟩
      · obtain ⟨_, u2, u3⟩ := decodeEdge_unsynced f (by rw [hfp]; exact h) h0
        rw [u2, u3, hfh, hfb]
        exact ⟨i1, i2⟩
    · rw [hc, hfd] at h
      omega

/-! ## Claims about the run -/

/-- C3: first reference edge.  An edge met while `prevEdge` is unset sets
`prevEdge` to the current `dataCounter`, leaves `halfTime` unchanged and appends
no bit, for any decoder state and any sample index; in a run, the first edge,
at sample `n + 1`, leaves `prevEdge = n + 1`, `halfTime = 0` and no bit. -/
theorem first_reference_edge (s : State) (file : List Nat) (n : Nat) :
    (s.prevEdge < 0 → s.edge ≠ 0 →
      (decodeEdge s).prevEdge = s.dataCounter ∧
      (decodeEdge s).halfTime = s.halfTime ∧
      (decodeEdge s).bits = s.bits) ∧
    ((stateAfter file n).prevEdge < 0 → (stateAfter file (n + 1)).edge ≠ 0 →
      (stateAfter file (n + 1)).prevEdge = (n : Int) + 1 ∧
      (stateAfter file (n + 1)).halfTime = 0 ∧
      (stateAfter file (n + 1)).bits = []) := by
  refine ⟨decodeEdge_unsynced s, ?_⟩
  intro hun he
  obtain ⟨i1, i2⟩ := stateAfter_unsynced file n hun
  rw [stateAfter_succ, sampleStep] at he ⊢
  generalize hf : frontEnd (rawBlock file (n / SMOOTH_WINDOW)) (n % SMOOTH_WINDOW)
    (stateAfter file n) = f at he ⊢
  have hfp : f.prevEdge = (stateAfter file n).prevEdge := by rw [← hf]; simp
  have hfh : f.halfTime = (stateAfter file n).halfTime := by rw [← hf]; simp
  have hfb : f.bits = (stateAfter file n).bits := by rw [← hf]; simp
  have hfd : f.dataCounter = n + 1 := by
    rw [← hf]
    simp [stateAfter_dataCounter]
  have hfe : f.edge ≠ 0 := by
    rw [(decodeEdge_frame f).2.2.2.1] at he
    exact he
  obtain ⟨u1, u2, u3⟩ := decodeEdge_unsynced f (by rw [hfp]; exact hun) hfe
  rw [u1, u2, u3, hfd, hfh, hfb]
  exact ⟨rfl, i1, i2⟩

/-- Witness for C3: a fresh decoder meeting its first edge at sample 90000. -/
theorem first_reference_edge_witness :
    (atEdge 1 90000 (-1) 0).prevEdge < 0 ∧ (atEdge 1 90000 (-1) 0).edge ≠ 0 ∧
    (decodeEdge (atEdge 1 90000 (-1) 0)).prevEdge = 90000 ∧
    (decodeEdge (atEdge 1 90000 (-1) 0)).halfTime = 0 ∧
    (decodeEdge (atEdge 1 90000 (-1) 0)).bits = [] :=
  ⟨by decide, by decide,
    (first_reference_edge (atEdge 1 90000 (-1) 0) [] 0).1 (by decide) (by decide)⟩

/-- C7: power and slicer.  The instantaneous power of the pair `(I, Q)` is
`(I-127)^2 + (Q-127)^2`; the running sum is updated by the power minus the
evicted buffer cell; and the power state after the sample is 1 iff the updated
running sum is at least `threshold * SMOOTH_WINDOW = 3318400`, else 0. -/
theorem power_and_slicer (raw : List Nat) (j : Nat) (s : State) :
    instPower raw j =
      ((raw.getD (2 * j) 0 : Int) - 127) ^ 2 + ((raw.getD (2 * j + 1) 0 : Int) - 127) ^ 2 ∧
    threshold * (SMOOTH_WINDOW : Int) = 3318400 ∧
    (sampleStep raw j s).runningSum = s.runningSum + (instPower raw j - s.buffer.getD j 0) ∧
    ((sampleStep raw j s).power = 1 ↔ 3318400 ≤ (sampleStep raw j s).runningSum) ∧
    ((sampleStep raw j s).power = 0 ↔ (sampleStep raw j s).runningSum < 3318400) ∧
    (sampleStep raw j s).prevPower = (sampleStep raw j s).power := by
  have hp := frontEnd_power raw j s
  refine ⟨?_, rfl, ?_, ?_, ?_, ?_⟩
  · unfold instPower
    simp only [Nat.add_zero]
    ring
  · simp only [sampleStep, decodeEdge_frame]
    rfl
  · simp only [sampleStep, decodeEdge_frame]
    rw [hp]
    split_ifs <;> omega
  · simp only [sampleStep, decodeEdge_frame]
    rw [hp]
    split_ifs <;> omega
  · simp only [sampleStep, decodeEdge_frame]
    rfl

theorem rawBlock_getD_of_forall (file : List Nat) (k i : Nat) (v : Nat)
    (hall : ∀ b ∈ file, b = v) (hk : (k + 1) * (2 * SMOOTH_WINDOW) ≤ file.length)
    (hi : i < 2 * SMOOTH_WINDOW) : (rawBlock file k).getD i 0 = v := by
  have hlen : (rawBlock file k).length = 2 * SMOOTH_WINDOW := by
    unfold rawBlock
    rw [List.length_take, List.length_drop]
    rw [Nat.add_mul, Nat.one_mul] at hk
    omega
  rw [List.getD_eq_getElem _ _ (by rw [hlen]; exact hi)]
  apply hall
  have hmem : (rawBlock file k)[i] ∈ rawBlock file k := List.getElem_mem _
  exact List.mem_of_mem_drop (List.mem_of_mem_take hmem)

theorem stateAfter_zero_power (file : List Nat) (h127 : ∀ b ∈ file, b = 127) (n : Nat)
    (hn : n ≤ numSamples file) :
    (stateAfter file n).runningSum = 0 ∧
    (stateAfter file n).buffer = List.replicate SMOOTH_WINDOW 0 ∧
    (stateAfter file n).power = 0 ∧ (stateAfter file n).edge = 0 ∧
    (stateAfter file n).prevPower = 0 ∧ (stateAfter file n).bits = [] := by
  induction n with
  | zero => exact ⟨rfl, rfl, rfl, rfl, rfl, rfl⟩
  | succ n ih =>
    obtain ⟨i1, i2, i3, i4, i5, i6⟩ := ih (by omega)
    have hk : (n / SMOOTH_WINDOW + 1) * (2 * SMOOTH_WINDOW) ≤ file.length := by
      unfold numSamples at hn
      rw [SMOOTH_WINDOW_eq] at hn ⊢
      omega
    have hj : n % SMOOTH_WINDOW < SMOOTH_WINDOW := Nat.mod_lt _ (by decide)
    have hI := rawBlock_getD_of_forall file (n / SMOOTH_WINDOW) (2 * (n % SMOOTH_WINDOW) + 0) 127
      h127 hk (by omega)
    have hQ := rawBlock_getD_of_forall file (n / SMOOTH_WINDOW) (2 * (n % SMOOTH_WINDOW) + 1) 127
      h127 hk (by omega)
    have hpow : instPower (rawBlock file (n / SMOOTH_WINDOW)) (n % SMOOTH_WINDOW) = 0 := by
      unfold instPower
      rw [hI, hQ]
      rfl
    rw [stateAfter_succ, sampleStep]
    generalize hf : frontEnd (rawBlock file (n / SMOOTH_WINDOW)) (n % SMOOTH_WINDOW)
      (stateAfter file n) = f
    have hsum : f.runningSum = 0 := by
      rw [← hf, (frontEnd_runningSum _ _ _).1, hpow, i1, i2]
      rw [List.getD_eq_getElem?_getD, List.getElem?_replicate, if_pos hj]
      rfl
    have hbuf : f.buffer = List.replicate SMOOTH_WINDOW 0 := by
      rw [← hf, (frontEnd_runningSum _ _ _).2, hpow, i2]
      exact List.set_replicate_self
    have hpw : f.power = 0 := by
      rw [← hf, frontEnd_power, hf, hsum]
      rfl
    have hedge : f.edge = 0 := by
      rw [← hf, (frontEnd_edge _ _ _).1, hf, hpw, i5]
      rfl
    have hpp : f.prevPower = 0 := by
      rw [← hf, (frontEnd_edge _ _ _).2, hf, hpw]
    have hbits : f.bits = [] := by
      rw [← hf]
      simp [i6]
    rw [decodeEdge_no_edge f hedge]
    exact ⟨hsum, hbuf, hpw, hedge, hpp, hbits⟩

theorem numSamples_replicate (n v : Nat) :
    numSamples (List.replicate n v) = 488 * (n / 976) := by
  unfold numSamples
  rw [List.length_replicate]
  rfl

/-- C10: zero-power stream.  On a file whose bytes are all 127 the output is
empty, and after every processed sample the power state is 0 and no edge has
been detected. -/
theorem zero_power_stream (file : List Nat) (h127 : ∀ b ∈ file, b = 127) :
    readFile file = [] ∧
    ∀ n, 1 ≤ n → n ≤ numSamples file →
      (stateAfter file n).power = 0 ∧ (stateAfter file n).edge = 0 ∧
      (stateAfter file n).bits = [] := by
  constructor
  · rw [readFile_eq_stateAfter]
    exact (stateAfter_zero_power file h127 _ (Nat.le_refl _)).2.2.2.2.2
  · intro n _ hn
    obtain ⟨_, _, h3, h4, _, h6⟩ := stateAfter_zero_power file h127 n hn
    exact ⟨h3, h4, h6⟩

/-- Witness for C10: one block of `2 * 488 = 976` bytes, all 127. -/
theorem zero_power_stream_witness :
    (∀ b ∈ List.replicate 976 127, b = 127) ∧
    numSamples (List.replicate 976 127) = 488 ∧
    readFile (List.replicate 976 127) = [] ∧
    (stateAfter (List.replicate 976 127) 488).power = 0 :=
  ⟨fun _ hb => List.eq_of_mem_replicate hb, numSamples_replicate 976 127,
    (zero_power_stream (List.replicate 976 127) (fun _ hb => List.eq_of_mem_replicate hb)).1,
    ((zero_power_stream (List.replicate 976 127) (fun _ hb => List.eq_of_mem_replicate hb)).2
      488 (by decide) (Nat.le_of_eq (numSamples_replicate 976 127).symm)).1⟩

/-! ## The moving sum -/

theorem lastWrite_succ (n j : Nat) :
    lastWrite (n + 1) j = if j = n % SMOOTH_WINDOW then n + 1 else lastWrite n j :=
  rfl

theorem lastWrite_spec (n j : Nat) (hj : j < SMOOTH_WINDOW) :
    lastWrite n j ≤ n ∧ (lastWrite n j = 0 → n ≤ j) ∧
    (0 < lastWrite n j →
      (lastWrite n j - 1) % SMOOTH_WINDOW = j ∧ n < lastWrite n j + SMOOTH_WINDOW) := by
  induction n with
  | zero => exact ⟨Nat.le_refl _, fun _ => Nat.zero_le _, fun h => absurd h (Nat.lt_irrefl 0)⟩
  | succ n ih =>
    obtain ⟨i1, i2, i3⟩ := ih
    rw [lastWrite_succ]
    generalize lastWrite n j = x at i1 i2 i3 ⊢
    rw [SMOOTH_WINDOW_eq] at hj i3 ⊢
    split_ifs with h
    · refine ⟨Nat.le_refl _, fun h0 => False.elim h0,
        fun _ => ⟨by omega, by omega⟩⟩
    · refine ⟨by omega, fun h0 => ?_, fun hpos => ?_⟩
      · have := i2 h0
        omega
      · have := i3 hpos
        omega

theorem lastWrite_evicted (n : Nat) :
    lastWrite n (n % SMOOTH_WINDOW) = if SMOOTH_WINDOW ≤ n then n + 1 - SMOOTH_WINDOW else 0 := by
  obtain ⟨i1, i2, i3⟩ := lastWrite_spec n (n % SMOOTH_WINDOW) (Nat.mod_lt _ (by decide))
  generalize lastWrite n (n % SMOOTH_WINDOW) = x at i1 i2 i3 ⊢
  rw [SMOOTH_WINDOW_eq] at i2 i3 ⊢
  rcases Nat.eq_zero_or_pos x with h0 | hpos
  · have := i2 h0
    split_ifs <;> omega
  · have := i3 hpos
    split_ifs <;> omega

theorem samplePower_succ (file : List Nat) (n : Nat) :
    samplePower file (n + 1) =
      instPower (rawBlock file (n / SMOOTH_WINDOW)) (n % SMOOTH_WINDOW) := by
  unfold samplePower
  rw [if_neg (Nat.succ_ne_zero n), Nat.add_sub_cancel]

theorem stateAfter_runningSum_succ (file : List Nat) (n : Nat) :
    (stateAfter file (n + 1)).runningSum =
      (stateAfter file n).runningSum +
        (samplePower file (n + 1) - (stateAfter file n).buffer.getD (n % SMOOTH_WINDOW) 0) ∧
    (stateAfter file (n + 1)).buffer =
      (stateAfter file n).buffer.set (n % SMOOTH_WINDOW) (samplePower file (n + 1)) := by
  rw [stateAfter_succ, sampleStep, samplePower_succ]
  simp only [decodeEdge_frame]
  exact frontEnd_runningSum _ _ _

theorem stateAfter_buffer_length (file : List Nat) (n : Nat) :
    (stateAfter file n).buffer.length = SMOOTH_WINDOW := by
  induction n with
  | zero => exact List.length_replicate _ _
  | succ n ih => rw [(stateAfter_runningSum_succ file n).2, List.length_set, ih]

/-- Cell `j` of the buffer holds the power of the last sample written to it. -/
theorem stateAfter_buffer_getD (file : List Nat) (n j : Nat) (hj : j < SMOOTH_WINDOW) :
    (stateAfter file n).buffer.getD j 0 = samplePower file (lastWrite n j) := by
  induction n with
  | zero =>
    show (List.replicate SMOOTH_WINDOW (0 : Int)).getD j 0 = 0
    rw [List.getD_eq_getElem?_getD, List.getElem?_replicate, if_pos hj]
    rfl
  | succ n ih =>
    have hlen := stateAfter_buffer_length file n
    have hm : n % SMOOTH_WINDOW < (stateAfter file n).buffer.length := by
      rw [hlen]
      exact Nat.mod_lt _ (by decide)
    rw [(stateAfter_runningSum_succ file n).2, List.getD_eq_getElem?_getD, List.getElem?_set]
    rw [lastWrite_succ]
    by_cases h : j = n % SMOOTH_WINDOW
    · rw [if_pos h.symm, if_pos hm, if_pos h]
      rfl
    · rw [if_neg (fun h' => h h'.symm), if_neg h, ← ih, List.getD_eq_getElem?_getD]

theorem stateAfter_evicted (file : List Nat) (n : Nat) :
    (stateAfter file n).buffer.getD (n % SMOOTH_WINDOW) 0 =
      if SMOOTH_WINDOW ≤ n then samplePower file (n + 1 - SMOOTH_WINDOW) else 0 := by
  rw [stateAfter_buffer_getD file n _ (Nat.mod_lt _ (by decide)), lastWrite_evicted]
  split_ifs
  · rfl
  · rfl

theorem stateAfter_runningSum_eq_sum (file : List Nat) (n : Nat) :
    (stateAfter file n).runningSum = (stateAfter file n).buffer.sum := by
  induction n with
  | zero =>
    show (0 : Int) = (List.replicate SMOOTH_WINDOW (0 : Int)).sum
    simp
  | succ n ih =>
    have hlen := stateAfter_buffer_length file n
    have hm : n % SMOOTH_WINDOW < (stateAfter file n).buffer.length := by
      rw [hlen]
      exact Nat.mod_lt _ (by decide)
    rw [(stateAfter_runningSum_succ file n).1, (stateAfter_runningSum_succ file n).2,
      List.sum_set', dif_pos hm, ih, List.getD_eq_getElem _ _ hm]
    ring

theorem windowSum_succ (f : Nat → Int) (n : Nat) :
    ∑ i ∈ Finset.Icc (max 1 (n + 2 - SMOOTH_WINDOW)) (n + 1), f i =
      ∑ i ∈ Finset.Icc (max 1 (n + 1 - SMOOTH_WINDOW)) n, f i +
        (f (n + 1) - if SMOOTH_WINDOW ≤ n then f (n + 1 - SMOOTH_WINDOW) else 0) := by
  rw [SMOOTH_WINDOW_eq]
  by_cases h : 488 ≤ n
  · have e1 : max 1 (n + 2 - 488) = (n + 1 - 488) + 1 := by omega
    have e2 : max 1 (n + 1 - 488) = n + 1 - 488 := by omega
    rw [if_pos h, e1, e2, Finset.sum_Icc_succ_top (by omega), ← Nat.Ico_succ_right,
      ← Nat.Ico_succ_right, Finset.sum_eq_sum_Ico_succ_bot (by omega : n + 1 - 488 < n.succ)]
    ring
  · have e1 : max 1 (n + 2 - 488) = 1 := by omega
    have e2 : max 1 (n + 1 - 488) = 1 := by omega
    rw [if_neg h, e1, e2, Finset.sum_Icc_succ_top (by omega)]
    ring

theorem stateAfter_runningSum_window (file : List Nat) (n : Nat) :
    (stateAfter file n).runningSum =
      ∑ i ∈ Finset.Icc (max 1 (n + 1 - SMOOTH_WINDOW)) n, samplePower file i := by
  induction n with
  | zero => rfl
  | succ n ih =>
    rw [(stateAfter_runningSum_succ file n).1, stateAfter_evicted, ih,
      windowSum_succ (samplePower file) n]

/-- C6: sliding-window invariant.  After sample `n` (`1 <= n`, within the whole
blocks of the file) the running sum is the sum of the powers of samples
`max(1, n-W+1) .. n`, it equals the sum of the buffer cells, and for `n > W`
the cell overwritten at step `n` held the power of sample `n - W`. -/
theorem sliding_window_invariant (file : List Nat) (n : Nat) (h1 : 1 ≤ n)
    (hn : n ≤ numSamples file) :
    (stateAfter file n).runningSum =
      ∑ i ∈ Finset.Icc (max 1 (n + 1 - SMOOTH_WINDOW)) n, samplePower file i ∧
    (stateAfter file n).runningSum = (stateAfter file n).buffer.sum ∧
    (SMOOTH_WINDOW < n →
      (stateAfter file (n - 1)).buffer.getD ((n - 1) % SMOOTH_WINDOW) 0 =
        samplePower file (n - SMOOTH_WINDOW)) := by
  have _ := hn
  refine ⟨stateAfter_runningSum_window file n, stateAfter_runningSum_eq_sum file n, ?_⟩
  intro hW
  have e : n - 1 + 1 - SMOOTH_WINDOW = n - SMOOTH_WINDOW := by omega
  rw [stateAfter_evicted, if_pos (by omega), e]

/-- Witness for C6: the last sample of the second block of a two-block file. -/
theorem sliding_window_invariant_witness :
    976 ≤ numSamples (List.replicate 1952 255) ∧
    (stateAfter (List.replicate 1952 255) 976).runningSum =
      ∑ i ∈ Finset.Icc (max 1 (976 + 1 - SMOOTH_WINDOW)) 976,
        samplePower (List.replicate 1952 255) i ∧
    (stateAfter (List.replicate 1952 255) 976).runningSum =
      (stateAfter (List.replicate 1952 255) 976).buffer.sum :=
  have hn : 976 ≤ numSamples (List.replicate 1952 255) := by
    rw [numSamples_replicate]
  have h := sliding_window_invariant (List.replicate 1952 255) 976 (by decide) hn
  ⟨hn, h.1, h.2.1⟩

/-! ## Time base of the decoder -/

theorem stateAfter_prevPower (file : List Nat) (n : Nat) :
    (stateAfter file n).prevPower = 0 ∨ (stateAfter file n).prevPower = 1 := by
  cases n with
  | zero => exact Or.inl rfl
  | succ n =>
    rw [stateAfter_succ, sampleStep, (decodeEdge_frame _).2.2.2.2.1, (frontEnd_edge _ _ _).2,
      frontEnd_power]
    split_ifs
    · exact Or.inr rfl
    · exact Or.inl rfl

theorem stateAfter_edge (file : List Nat) (n : Nat) :
    (stateAfter file (n + 1)).edge = 0 ∨ (stateAfter file (n + 1)).edge = 1 ∨
      (stateAfter file (n + 1)).edge = -1 := by
  have hp := stateAfter_prevPower file n
  rw [stateAfter_succ, sampleStep, (decodeEdge_frame _).2.2.2.1, (frontEnd_edge _ _ _).1,
    frontEnd_power]
  split_ifs <;> omega

/-! ## One edge on a synced decoder, all fields -/

theorem decodeEdge_rising_synced (s : State) (hset : 0 ≤ s.prevEdge) (he : s.edge = 1) :
    ((decodeEdge s).prevEdge =
      if 80000 < s.dataCounter - s.prevEdge ∨
        (200 ≤ s.dataCounter - s.prevEdge ∧ s.dataCounter - s.prevEdge ≤ 1100)
      then s.dataCounter else s.prevEdge) ∧
    ((decodeEdge s).halfTime =
      if 80000 < s.dataCounter - s.prevEdge then 0
      else if 200 ≤ s.dataCounter - s.prevEdge ∧ s.dataCounter - s.prevEdge < 615
        then s.halfTime + 1
      else if 615 ≤ s.dataCounter - s.prevEdge ∧ s.dataCounter - s.prevEdge ≤ 1100
        then s.halfTime + 2
      else s.halfTime) ∧
    ((decodeEdge s).addBit =
      if 80000 < s.dataCounter - s.prevEdge ∨
        (200 ≤ s.dataCounter - s.prevEdge ∧ s.dataCounter - s.prevEdge ≤ 1100)
      then 1 else 0) ∧
    ((decodeEdge s).bits =
      if (decodeEdge s).addBit ≠ 0 ∧ (decodeEdge s).halfTime % 2 = 0
      then s.bits ++ [1] else s.bits) ∧
    (decodeEdge s).edgeCountDiff = s.dataCounter - s.prevEdge := by
  obtain ⟨hp, hdiff⟩ := timing_synced s hset (by omega)
  rw [decodeEdge_rising s he]
  simp only [emit_bits, emit_frame, risingBands_fields, risingBands_frame, timing_frame, hp, hdiff]
  refine ⟨?_, ?_, ?_, ?_, ?_⟩ <;> trivial

theorem decodeEdge_falling_synced (s : State) (hset : 0 ≤ s.prevEdge) (he : s.edge = -1) :
    ((decodeEdge s).prevEdge =
      if 80000 < s.dataCounter - s.prevEdge ∨
        (400 ≤ s.dataCounter - s.prevEdge ∧ s.dataCounter - s.prevEdge ≤ 1400)
      then s.dataCounter else s.prevEdge) ∧
    ((decodeEdge s).halfTime =
      if 80000 < s.dataCounter - s.prevEdge then 0
      else if 400 ≤ s.dataCounter - s.prevEdge ∧ s.dataCounter - s.prevEdge < 850
        then s.halfTime + 1
      else if 850 ≤ s.dataCounter - s.prevEdge ∧ s.dataCounter - s.prevEdge ≤ 1400
        then s.halfTime + 2
      else s.halfTime) ∧
    ((decodeEdge s).addBit =
      if 80000 < s.dataCounter - s.prevEdge ∨
        (400 ≤ s.dataCounter - s.prevEdge ∧ s.dataCounter - s.prevEdge ≤ 1400)
      then 1 else 0) ∧
    ((decodeEdge s).bits =
      if (decodeEdge s).addBit ≠ 0 ∧ (decodeEdge s).halfTime % 2 = 0
      then s.bits ++ [0] else s.bits) ∧
    (decodeEdge s).edgeCountDiff = s.dataCounter - s.prevEdge := by
  obtain ⟨hp, hdiff⟩ := timing_synced s hset (by omega)
  rw [decodeEdge_falling s he]
  simp only [emit_bits, emit_frame, fallingBands_fields, fallingBands_frame, timing_frame, hp,
    hdiff]
  refine ⟨?_, ?_, ?_, ?_, ?_⟩ <;> trivial

theorem lastAccepted_succ (file : List Nat) (n : Nat) :
    lastAccepted file (n + 1) = if accepted file (n + 1) then n + 1 else lastAccepted file n :=
  rfl

theorem lastAccepted_le (file : List Nat) (n : Nat) : lastAccepted file n ≤ n := by
  induction n with
  | zero => exact Nat.le_refl _
  | succ n ih =>
    rw [lastAccepted_succ]
    split_ifs
    · exact Nat.le_refl _
    · omega

theorem lastAccepted_mono (file : List Nat) (n k : Nat) :
    lastAccepted file n ≤ lastAccepted file (n + k) := by
  induction k with
  | zero => exact Nat.le_refl _
  | succ k ih =>
    rw [← Nat.add_assoc, lastAccepted_succ]
    split_ifs
    · have := lastAccepted_le file n
      omega
    · exact ih

theorem acceptBand_iff (edge d : Int) :
    acceptBand edge d = true ↔
      (edge = 1 ∧ (80000 < d ∨ (200 ≤ d ∧ d ≤ 1100))) ∨
      (edge = -1 ∧ (80000 < d ∨ (400 ≤ d ∧ d ≤ 1400))) := by
  unfold acceptBand
  exact decide_eq_true_iff

/-- What `accepted` says, in numbers: an edge is detected at sample `n + 1`,
and it is the first edge or its interval from the most recent accepted edge
lies in a resync, half-unit or full-unit band of its direction. -/
theorem accepted_succ (file : List Nat) (n : Nat) :
    accepted file (n + 1) = true ↔
      (stateAfter file (n + 1)).edge ≠ 0 ∧
        (lastAccepted file n = 0 ∨
          ((stateAfter file (n + 1)).edge = 1 ∧
            (80000 < (n : Int) + 1 - (lastAccepted file n : Int) ∨
              (200 ≤ (n : Int) + 1 - (lastAccepted file n : Int) ∧
                (n : Int) + 1 - (lastAccepted file n : Int) ≤ 1100))) ∨
          ((stateAfter file (n + 1)).edge = -1 ∧
            (80000 < (n : Int) + 1 - (lastAccepted file n : Int) ∨
              (400 ≤ (n : Int) + 1 - (lastAccepted file n : Int) ∧
                (n : Int) + 1 - (lastAccepted file n : Int) ≤ 1400)))) := by
  show acceptedAt file n (lastAccepted file n) = true ↔ _
  unfold acceptedAt
  rw [decide_eq_true_iff, acceptBand_iff]

/-- The reference time held in `prevEdge` is the sample index of the most
recent accepted edge, and `-1` before the first edge. -/
theorem stateAfter_prevEdge (file : List Nat) (n : Nat) :
    (stateAfter file n).prevEdge =
      (if lastAccepted file n = 0 then (-1 : Int) else (lastAccepted file n : Int)) ∧
    (lastAccepted file n ≠ 0 → accepted file (lastAccepted file n) = true) := by
  induction n with
  | zero => exact ⟨rfl, fun h => absurd rfl h⟩
  | succ n ih =>
    obtain ⟨ihp, iha⟩ := ih
    have hacc := accepted_succ file n
    have hedge := stateAfter_edge file n
    rw [lastAccepted_succ]
    rw [stateAfter_succ, sampleStep] at hacc hedge ⊢
    generalize hf : frontEnd (rawBlock file (n / SMOOTH_WINDOW)) (n % SMOOTH_WINDOW)
      (stateAfter file n) = f at hacc hedge ⊢
    have hfp : f.prevEdge = (stateAfter file n).prevEdge := by rw [← hf]; simp
    have hfd : f.dataCounter = n + 1 := by
      rw [← hf]
      simp [stateAfter_dataCounter]
    have hfe : (decodeEdge f).edge = f.edge := (decodeEdge_frame f).2.2.2.1
    rw [hfe] at hacc hedge
    by_cases h0 : f.edge = 0
    · have hna : ¬ accepted file (n + 1) = true := fun h => (hacc.1 h).1 h0
      rw [if_neg hna, decodeEdge_no_edge f h0, hfp]
      exact ⟨ihp, iha⟩
    by_cases hun : lastAccepted file n = 0
    · have hneg : (stateAfter file n).prevEdge < 0 := by
        rw [ihp, if_pos hun]
        decide
      have ha : accepted file (n + 1) = true := hacc.2 ⟨h0, Or.inl hun⟩
      rw [if_pos ha, (decodeEdge_unsynced f (by rw [hfp]; exact hneg) h0).1, hfd]
      refine ⟨?_, fun _ => ha⟩
      rw [if_neg (Nat.succ_ne_zero n)]
      push_cast
      rfl
    · have hprev : f.prevEdge = (lastAccepted file n : Int) := by
        rw [hfp, ihp, if_neg hun]
      have hset : 0 ≤ f.prevEdge := by
        rw [hprev]
        omega
      rcases hedge with he | he | he
      · exact absurd he h0
      · have hP := (decodeEdge_rising_synced f hset he).1
        rw [hfd, hprev] at hP
        rw [he] at hacc
        by_cases hb : 80000 < (n : Int) + 1 - (lastAccepted file n : Int) ∨
            (200 ≤ (n : Int) + 1 - (lastAccepted file n : Int) ∧
              (n : Int) + 1 - (lastAccepted file n : Int) ≤ 1100)
        · have ha : accepted file (n + 1) = true :=
            hacc.2 ⟨by decide, Or.inr (Or.inl ⟨rfl, hb⟩)⟩
          rw [if_pos ha, hP, if_pos hb]
          refine ⟨?_, fun _ => ha⟩
          rw [if_neg (Nat.succ_ne_zero n)]
          push_cast
          rfl
        · have hna : ¬ accepted file (n + 1) = true := by
            intro h
            rcases (hacc.1 h).2 with h' | ⟨_, h'⟩ | ⟨h', _⟩
            · exact hun h'
            · exact hb h'
            · exact absurd h' (by decide)
          rw [if_neg hna, hP, if_neg hb, if_neg hun]
          exact ⟨rfl, iha⟩
      · have hP := (decodeEdge_falling_synced f hset he).1
        rw [hfd, hprev] at hP
        rw [he] at hacc
        by_cases hb : 80000 < (n : Int) + 1 - (lastAccepted file n : Int) ∨
            (400 ≤ (n : Int) + 1 - (lastAccepted file n : Int) ∧
              (n : Int) + 1 - (lastAccepted file n : Int) ≤ 1400)
        · have ha : accepted file (n + 1) = true :=
            hacc.2 ⟨by decide, Or.inr (Or.inr ⟨rfl, hb⟩)⟩
          rw [if_pos ha, hP, if_pos hb]
          refine ⟨?_, fun _ => ha⟩
          rw [if_neg (Nat.succ_ne_zero n)]
          push_cast
          rfl
        · have hna : ¬ accepted file (n + 1) = true := by
            intro h
            rcases (hacc.1 h).2 with h' | ⟨h', _⟩ | ⟨_, h'⟩
            · exact hun h'
            · exact absurd h' (by decide)
            · exact hb h'
          rw [if_neg hna, hP, if_neg hb, if_neg hun]
          exact ⟨rfl, iha⟩

theorem stateAfter_edgeCountDiff (file : List Nat) (n : Nat)
    (he : (stateAfter file (n + 1)).edge ≠ 0) :
    (stateAfter file (n + 1)).edgeCountDiff =
      ((n : Int) + 1) -
        (if (stateAfter file n).prevEdge < 0 then (n : Int) + 1
          else (stateAfter file n).prevEdge) := by
  rw [stateAfter_succ, sampleStep] at he ⊢
  generalize hf : frontEnd (rawBlock file (n / SMOOTH_WINDOW)) (n % SMOOTH_WINDOW)
    (stateAfter file n) = f at he ⊢
  have hfp : f.prevEdge = (stateAfter file n).prevEdge := by rw [← hf]; simp
  have hfd : f.dataCounter = n + 1 := by
    rw [← hf]
    simp [stateAfter_dataCounter]
  rw [(decodeEdge_frame f).2.2.2.1] at he
  rw [decodeEdge_edgeCountDiff, timing_edgeCountDiff, if_pos he, timing_prevEdge, hfd, hfp]
  split_ifs with h1 h2 h2
  · rfl
  · exact absurd h1.2 h2
  · exact absurd ⟨he, h2⟩ h1
  · rfl

/-- C8: monotonic time.  `dataCounter` starts at 0, grows by one per sample
and equals `n` after (and while) sample `n` is processed, whatever the block.
An edge is accepted when it is the first one (the reference edge) or its
interval from the most recent accepted edge lies in a resync, half-unit or
full-unit band of its direction; every other edge is rejected.  The interval
computed on an edge at sample `n + 1` is `n + 1` minus the sample index of the
most recent accepted edge (the edge itself when it is the first one);
`prevEdge`, once set, is the sample index of the most recent accepted edge; an
accepted edge moves it to `n + 1` and a rejected edge leaves it where it was. -/
theorem monotonic_time (file : List Nat) (n : Nat) (hn : n + 1 ≤ numSamples file) :
    (stateAfter file 0).dataCounter = 0 ∧
    (stateAfter file (n + 1)).dataCounter = (stateAfter file n).dataCounter + 1 ∧
    (stateAfter file (n + 1)).dataCounter = (n : Int) + 1 ∧
    (frontEnd (rawBlock file (n / SMOOTH_WINDOW)) (n % SMOOTH_WINDOW)
      (stateAfter file n)).dataCounter = (n : Int) + 1 ∧
    ((stateAfter file (n + 1)).edge ≠ 0 →
      (stateAfter file (n + 1)).edgeCountDiff =
        ((n : Int) + 1) -
          (if lastAccepted file n = 0 then (n : Int) + 1 else (lastAccepted file n : Int))) ∧
    (0 ≤ (stateAfter file (n + 1)).prevEdge →
      (stateAfter file (n + 1)).prevEdge = (lastAccepted file (n + 1) : Int) ∧
      accepted file (lastAccepted file (n + 1)) = true) ∧
    (accepted file (n + 1) = true ↔
      (stateAfter file (n + 1)).edge ≠ 0 ∧
        (lastAccepted file n = 0 ∨
          ((stateAfter file (n + 1)).edge = 1 ∧
            (80000 < (n : Int) + 1 - (lastAccepted file n : Int) ∨
              (200 ≤ (n : Int) + 1 - (lastAccepted file n : Int) ∧
                (n : Int) + 1 - (lastAccepted file n : Int) ≤ 1100))) ∨
          ((stateAfter file (n + 1)).edge = -1 ∧
            (80000 < (n : Int) + 1 - (lastAccepted file n : Int) ∨
              (400 ≤ (n : Int) + 1 - (lastAccepted file n : Int) ∧
                (n : Int) + 1 - (lastAccepted file n : Int) ≤ 1400))))) ∧
    (lastAccepted file (n + 1) = if accepted file (n + 1) then n + 1 else lastAccepted file n) ∧
    (accepted file (n + 1) = true → (stateAfter file (n + 1)).prevEdge = (n : Int) + 1) ∧
    (accepted file (n + 1) = false →
      (stateAfter file (n + 1)).prevEdge = (stateAfter file n).prevEdge ∧
      (stateAfter file (n + 1)).prevEdge ≠ (n : Int) + 1) := by
  have _ := hn
  have hd := stateAfter_dataCounter file
  obtain ⟨hp0, _⟩ := stateAfter_prevEdge file n
  obtain ⟨hp1, ha1⟩ := stateAfter_prevEdge file (n + 1)
  have hle := lastAccepted_le file n
  refine ⟨rfl, ?_, ?_, ?_, ?_, ?_, accepted_succ file n, lastAccepted_succ file n, ?_, ?_⟩
  · rw [hd, hd]
    push_cast
    rfl
  · rw [hd]
    push_cast
    rfl
  · simp [hd]
  · intro he
    rw [stateAfter_edgeCountDiff file n he, hp0]
    by_cases h0 : lastAccepted file n = 0
    · simp [h0]
    · have hneg : ¬ ((lastAccepted file n : Int) < 0) := by omega
      simp [h0, hneg]
  · intro hset
    by_cases h0 : lastAccepted file (n + 1) = 0
    · rw [hp1, if_pos h0] at hset
      omega
    · rw [hp1, if_neg h0]
      exact ⟨rfl, ha1 h0⟩
  · intro hacc
    rw [hp1, lastAccepted_succ, if_pos hacc, if_neg (Nat.succ_ne_zero n)]
    push_cast
    rfl
  · intro hrej
    have hne : ¬ accepted file (n + 1) = true := by
      rw [hrej]
      decide
    rw [hp1, hp0, lastAccepted_succ, if_neg hne]
    refine ⟨rfl, ?_⟩
    split_ifs <;> omega

/-! ## Samples and file offsets -/

theorem rawBlock_getD (file : List Nat) (k i : Nat) (hi : i < 2 * SMOOTH_WINDOW) :
    (rawBlock file k).getD i 0 = file.getD (k * (2 * SMOOTH_WINDOW) + i) 0 := by
  unfold rawBlock
  rw [List.getD_eq_getElem?_getD, List.getD_eq_getElem?_getD, List.getElem?_take, if_pos hi,
    List.getElem?_drop]

/-- Sample `n + 1` of the run is the byte pair at offsets `2 * n` and
`2 * n + 1` of the file. -/
theorem samplePower_bytes (file : List Nat) (n : Nat) :
    samplePower file (n + 1) =
      ((file.getD (2 * n) 0 : Int) - 127) * ((file.getD (2 * n) 0 : Int) - 127) +
        ((file.getD (2 * n + 1) 0 : Int) - 127) * ((file.getD (2 * n + 1) 0 : Int) - 127) := by
  have hj : n % SMOOTH_WINDOW < SMOOTH_WINDOW := Nat.mod_lt _ (by decide)
  have e0 : n / SMOOTH_WINDOW * (2 * SMOOTH_WINDOW) + (2 * (n % SMOOTH_WINDOW) + 0) = 2 * n := by
    rw [SMOOTH_WINDOW_eq]
    omega
  have e1 : n / SMOOTH_WINDOW * (2 * SMOOTH_WINDOW) + (2 * (n % SMOOTH_WINDOW) + 1) =
      2 * n + 1 := by
    rw [SMOOTH_WINDOW_eq]
    omega
  rw [samplePower_succ]
  unfold instPower
  rw [rawBlock_getD file _ _ (by omega), rawBlock_getD file _ _ (by omega), e0, e1]

--THMS
/-! ## Edge detector and resync emission -/

/-- C12: edge detector.  With the previous power state in `{0, 1}`, the new
power state is in `{0, 1}` and the detected edge is 1 (rising) iff the state
went from 0 to 1, -1 (falling) iff it went from 1 to 0, and 0 iff it did not
change; the previous state starts at 0 and holds the current state after every
sample. -/
theorem edge_detector (raw : List Nat) (j : Nat) (s : State)
    (hprev : s.prevPower = 0 ∨ s.prevPower = 1) :
    ((sampleStep raw j s).power = 0 ∨ (sampleStep raw j s).power = 1) ∧
    ((sampleStep raw j s).edge = (sampleStep raw j s).power - s.prevPower) ∧
    ((sampleStep raw j s).edge = 1 ↔ s.prevPower = 0 ∧ (sampleStep raw j s).power = 1) ∧
    ((sampleStep raw j s).edge = -1 ↔ s.prevPower = 1 ∧ (sampleStep raw j s).power = 0) ∧
    ((sampleStep raw j s).edge = 0 ↔ (sampleStep raw j s).power = s.prevPower) ∧
    init.prevPower = 0 ∧
    (sampleStep raw j s).prevPower = (sampleStep raw j s).power := by
  have hp : (frontEnd raw j s).power = 0 ∨ (frontEnd raw j s).power = 1 := by
    rw [frontEnd_power]
    split_ifs
    · exact Or.inr rfl
    · exact Or.inl rfl
  have he := (frontEnd_edge raw j s).1
  simp only [sampleStep, decodeEdge_frame]
  refine ⟨hp, he, ?_, ?_, ?_, rfl, (frontEnd_edge raw j s).2⟩ <;> omega

/-- Witness for C12: the first sample of a run, from the initial state. -/
theorem edge_detector_witness :
    (init.prevPower = 0 ∨ init.prevPower = 1) ∧
    ((sampleStep [255, 255] 0 init).edge = 0 ↔
      (sampleStep [255, 255] 0 init).power = init.prevPower) :=
  ⟨Or.inl rfl, (edge_detector [255, 255] 0 init (Or.inl rfl)).2.2.2.2.1⟩

/-- C13: a resync edge always emits.  With `prevEdge` set and any `halfTime`,
an edge at interval above 80000 appends exactly one bit: `1` when rising, `0`
when falling. -/
theorem resync_always_emits (s : State) (d : Int) (hset : 0 ≤ s.prevEdge)
    (hd : d = s.dataCounter - s.prevEdge) (hlong : 80000 < d) :
    (s.edge = 1 → (decodeEdge s).bits = s.bits ++ [1]) ∧
    (s.edge = -1 → (decodeEdge s).bits = s.bits ++ [0]) := by
  subst hd
  constructor
  · intro he
    obtain ⟨_, h2, h3, h4, _⟩ := decodeEdge_rising_synced s hset he
    rw [h4, h3, h2, if_pos (Or.inl hlong), if_pos hlong]
    rfl
  · intro he
    obtain ⟨_, h2, h3, h4, _⟩ := decodeEdge_falling_synced s hset he
    rw [h4, h3, h2, if_pos (Or.inl hlong), if_pos hlong]
    rfl

/-- Witness for C13: a rising edge 90000 samples after the reference edge, on
an odd `halfTime`. -/
theorem resync_always_emits_witness :
    (0 : Int) ≤ (atEdge 1 91000 1000 3).prevEdge ∧
    (decodeEdge (atEdge 1 91000 1000 3)).bits = (atEdge 1 91000 1000 3).bits ++ [1] :=
  ⟨by decide,
    (resync_always_emits (atEdge 1 91000 1000 3) 90000 (by decide) (by decide) (by decide)).1
      (by decide)⟩

/-! ## Power state and edges along the run -/

theorem stateAfter_edge_eq (file : List Nat) (n : Nat) :
    (stateAfter file (n + 1)).edge =
      (stateAfter file (n + 1)).prevPower - (stateAfter file n).prevPower ∧
    (stateAfter file (n + 1)).power = (stateAfter file (n + 1)).prevPower := by
  rw [stateAfter_succ, sampleStep]
  simp only [decodeEdge_frame]
  exact ⟨(frontEnd_edge _ _ _).1, (frontEnd_edge _ _ _).2.symm⟩

theorem stateAfter_prevPower_eq (file : List Nat) (n : Nat) :
    (stateAfter file n).prevPower =
      if 3318400 ≤ (stateAfter file n).runningSum then 1 else 0 := by
  cases n with
  | zero => rfl
  | succ n =>
    rw [stateAfter_succ, sampleStep]
    simp only [decodeEdge_frame]
    rw [(frontEnd_edge _ _ _).2, frontEnd_power]

/-- While no edge is detected the power state does not change. -/
theorem prevPower_of_no_edge (file : List Nat) (m k : Nat)
    (h : ∀ i, m ≤ i → i < m + k → (stateAfter file (i + 1)).edge = 0) :
    (stateAfter file (m + k)).prevPower = (stateAfter file m).prevPower := by
  induction k with
  | zero => rfl
  | succ k ih =>
    have h1 := ih (fun i hi1 hi2 => h i hi1 (by omega))
    have h2 := h (m + k) (by omega) (by omega)
    have h3 := (stateAfter_edge_eq file (m + k)).1
    rw [h2] at h3
    rw [← h1, ← Nat.add_assoc]
    omega

theorem rising_sub_falling (file : List Nat) (n : Nat) :
    (risingCount file n : Int) - (fallingCount file n : Int) =
      (stateAfter file n).prevPower := by
  induction n with
  | zero => rfl
  | succ n ih =>
    have he := (stateAfter_edge_eq file n).1
    have hc := stateAfter_edge file n
    show ((risingCount file n + (if (stateAfter file (n + 1)).edge = 1 then 1 else 0) : Nat) : Int)
      - ((fallingCount file n + (if (stateAfter file (n + 1)).edge = -1 then 1 else 0) : Nat) : Int)
      = _
    rcases hc with h | h | h
    · rw [h] at he
      rw [h]
      simp only [show ¬ ((0 : Int) = 1) by decide, show ¬ ((0 : Int) = -1) by decide, if_false,
        Nat.add_zero]
      omega
    · rw [h] at he
      rw [h]
      simp only [show ¬ ((1 : Int) = -1) by decide, if_false, if_true, Nat.add_zero]
      push_cast
      omega
    · rw [h] at he
      rw [h]
      simp only [show ¬ ((-1 : Int) = 1) by decide, if_false, if_true, Nat.add_zero]
      push_cast
      omega

/-- C17: edges alternate.  The first detected edge of a run is rising; two
detected edges with no edge between them have opposite directions; and the
number of rising edges minus the number of falling edges seen so far is the
current power state. -/
theorem edges_alternate (file : List Nat) (m k : Nat) :
    ((∀ i, i < m → (stateAfter file (i + 1)).edge = 0) →
      (stateAfter file (m + 1)).edge ≠ 0 → (stateAfter file (m + 1)).edge = 1) ∧
    ((stateAfter file (m + 1)).edge ≠ 0 →
      (∀ i, m + 1 ≤ i → i < m + 1 + k → (stateAfter file (i + 1)).edge = 0) →
      (stateAfter file (m + 1 + k + 1)).edge ≠ 0 →
      (stateAfter file (m + 1 + k + 1)).edge = -(stateAfter file (m + 1)).edge) ∧
    (risingCount file m : Int) - (fallingCount file m : Int) = (stateAfter file m).prevPower ∧
    (stateAfter file (m + 1)).power = (stateAfter file (m + 1)).prevPower := by
  refine ⟨?_, ?_, rising_sub_falling file m, (stateAfter_edge_eq file m).2⟩
  · intro h0 hne
    have hp := prevPower_of_no_edge file 0 m
      (fun i _ hi => h0 i (by omega))
    rw [Nat.zero_add] at hp
    have h00 : (stateAfter file 0).prevPower = 0 := rfl
    have he := (stateAfter_edge_eq file m).1
    have hc := stateAfter_prevPower file (m + 1)
    rcases stateAfter_edge file m with h | h | h
    · exact absurd h hne
    · exact h
    · omega
  · intro hne hgap hne2
    have hp := prevPower_of_no_edge file (m + 1) k hgap
    have he1 := (stateAfter_edge_eq file m).1
    have he2 := (stateAfter_edge_eq file (m + 1 + k)).1
    have hc0 := stateAfter_prevPower file m
    have hc1 := stateAfter_prevPower file (m + 1)
    have hc2 := stateAfter_prevPower file (m + 1 + k + 1)
    omega

--THMS
/-! ## The first block -/

theorem instPower_nonneg (raw : List Nat) (j : Nat) : 0 ≤ instPower raw j := by
  unfold instPower
  exact add_nonneg (mul_self_nonneg _) (mul_self_nonneg _)

theorem samplePower_nonneg (file : List Nat) (n : Nat) : 0 ≤ samplePower file n := by
  unfold samplePower
  split_ifs
  · exact le_refl _
  · exact instPower_nonneg _ _

theorem firstBlock_runningSum (file : List Nat) (n : Nat) (hn : n < SMOOTH_WINDOW) :
    (stateAfter file n).buffer.getD (n % SMOOTH_WINDOW) 0 = 0 ∧
    (stateAfter file (n + 1)).runningSum =
      (stateAfter file n).runningSum + samplePower file (n + 1) := by
  have h0 : (stateAfter file n).buffer.getD (n % SMOOTH_WINDOW) 0 = 0 := by
    rw [stateAfter_evicted, if_neg (by omega)]
  refine ⟨h0, ?_⟩
  rw [(stateAfter_runningSum_succ file n).1, h0]
  ring

theorem firstBlock_prevPower_step (file : List Nat) (n : Nat) (hn : n < SMOOTH_WINDOW)
    (h : (stateAfter file n).prevPower = 1) : (stateAfter file (n + 1)).prevPower = 1 := by
  have hs := (firstBlock_runningSum file n hn).2
  have hp := samplePower_nonneg file (n + 1)
  rw [stateAfter_prevPower_eq] at h ⊢
  split_ifs at h ⊢ with h1 h2 h2
  · rfl
  · omega
  · omega
  · omega

theorem firstBlock_prevPower_mono (file : List Nat) (a k : Nat) (hk : a + k ≤ SMOOTH_WINDOW)
    (h : (stateAfter file a).prevPower = 1) : (stateAfter file (a + k)).prevPower = 1 := by
  induction k with
  | zero => exact h
  | succ k ih =>
    exact firstBlock_prevPower_step file (a + k) (by omega) (ih (by omega))

theorem firstBlock_edge (file : List Nat) (n : Nat) (hn : n < SMOOTH_WINDOW) :
    (stateAfter file (n + 1)).edge = 0 ∨
      ((stateAfter file (n + 1)).edge = 1 ∧ (stateAfter file n).prevPower = 0 ∧
        (stateAfter file (n + 1)).prevPower = 1) := by
  have he := (stateAfter_edge_eq file n).1
  have h0 := stateAfter_prevPower file n
  have h1 := stateAfter_prevPower file (n + 1)
  have hm := firstBlock_prevPower_step file n hn
  rcases h0 with h0 | h0
  · rcases h1 with h1 | h1
    · left
      omega
    · right
      exact ⟨by omega, h0, h1⟩
  · left
    have := hm h0
    omega

/-- In the first block the decoder has emitted nothing, and once `prevEdge` is
set the power state is 1. -/
theorem firstBlock_inv (file : List Nat) (n : Nat) (hn : n ≤ SMOOTH_WINDOW) :
    (stateAfter file n).bits = [] ∧
    (0 ≤ (stateAfter file n).prevEdge → (stateAfter file n).prevPower = 1) := by
  induction n with
  | zero => exact ⟨rfl, fun h => absurd h (show ¬ (0 : Int) ≤ -1 by decide)⟩
  | succ n ih =>
    obtain ⟨ib, ip⟩ := ih (by omega)
    have hcase := firstBlock_edge file n (by omega)
    have hpe := (stateAfter_edge_eq file n).1
    rw [stateAfter_succ, sampleStep] at hcase hpe ⊢
    generalize hf : frontEnd (rawBlock file (n / SMOOTH_WINDOW)) (n % SMOOTH_WINDOW)
      (stateAfter file n) = f at hcase hpe ⊢
    have hfp : f.prevEdge = (stateAfter file n).prevEdge := by rw [← hf]; simp
    have hfb : f.bits = (stateAfter file n).bits := by rw [← hf]; simp
    have hfe : (decodeEdge f).edge = f.edge := (decodeEdge_frame f).2.2.2.1
    rw [hfe] at hcase hpe
    rcases hcase with h0 | ⟨h1, hp0, hp1⟩
    · rw [decodeEdge_no_edge f h0] at hpe ⊢
      rw [hfb, hfp]
      refine ⟨ib, fun h => ?_⟩
      have := ip h
      omega
    · have hun : f.prevEdge < 0 := by
        rw [hfp]
        by_contra hc
        have := ip (by omega)
        omega
      obtain ⟨_, _, u3⟩ := decodeEdge_unsynced f hun (by omega)
      rw [u3, hfb]
      exact ⟨ib, fun _ => hp1⟩

theorem stateAfter_first_edge (file : List Nat) (n : Nat)
    (hun : (stateAfter file n).prevEdge < 0) (he : (stateAfter file (n + 1)).edge ≠ 0) :
    (stateAfter file (n + 1)).prevEdge = (n : Int) + 1 := by
  rw [stateAfter_succ, sampleStep] at he ⊢
  generalize hf : frontEnd (rawBlock file (n / SMOOTH_WINDOW)) (n % SMOOTH_WINDOW)
    (stateAfter file n) = f at he ⊢
  have hfp : f.prevEdge = (stateAfter file n).prevEdge := by rw [← hf]; simp
  have hfd : f.dataCounter = n + 1 := by
    rw [← hf]
    simp [stateAfter_dataCounter]
  rw [(decodeEdge_frame f).2.2.2.1] at he
  rw [(decodeEdge_unsynced f (by rw [hfp]; exact hun) he).1, hfd]

theorem firstBlock_fallingCount (file : List Nat) (n : Nat) (hn : n ≤ SMOOTH_WINDOW) :
    fallingCount file n = 0 := by
  induction n with
  | zero => rfl
  | succ n ih =>
    show fallingCount file n + (if (stateAfter file (n + 1)).edge = -1 then 1 else 0) = 0
    rw [ih (by omega)]
    rcases firstBlock_edge file n (by omega) with h | ⟨h, _, _⟩
    · rw [h]
      rfl
    · rw [h]
      rfl

theorem readFile_single_block (file : List Nat) (h : numSamples file = SMOOTH_WINDOW) :
    readFile file = [] := by
  rw [readFile_eq_stateAfter, h]
  exact (firstBlock_inv file SMOOTH_WINDOW (Nat.le_refl _)).1

/-- C15: warm-up block.  While sample `n + 1` of the first block is processed
(`n < 488`) the evicted buffer cell is zero and the running sum does not
decrease; a power state of 1 stays 1; the edge is not falling; an edge earlier
in the block excludes an edge now; an edge now is rising and is taken as the
reference edge; no bit has been emitted; and the output for a file of a single
block is empty. -/
theorem warm_up_block (file : List Nat) (n : Nat) (hW : n < SMOOTH_WINDOW) :
    (stateAfter file n).buffer.getD (n % SMOOTH_WINDOW) 0 = 0 ∧
    (stateAfter file n).runningSum ≤ (stateAfter file (n + 1)).runningSum ∧
    ((stateAfter file n).prevPower = 1 → (stateAfter file (n + 1)).power = 1) ∧
    (stateAfter file (n + 1)).edge ≠ -1 ∧
    (∀ m, m < n → (stateAfter file (m + 1)).edge ≠ 0 → (stateAfter file (n + 1)).edge = 0) ∧
    ((stateAfter file (n + 1)).edge ≠ 0 →
      (stateAfter file (n + 1)).edge = 1 ∧ (stateAfter file n).prevEdge < 0 ∧
      (stateAfter file (n + 1)).prevEdge = (n : Int) + 1) ∧
    (stateAfter file (n + 1)).bits = [] ∧
    (numSamples file = SMOOTH_WINDOW → readFile file = []) := by
  obtain ⟨hev, hsum⟩ := firstBlock_runningSum file n hW
  have hedge := firstBlock_edge file n hW
  refine ⟨hev, ?_, ?_, ?_, ?_, ?_, (firstBlock_inv file (n + 1) hW).1,
    readFile_single_block file⟩
  · have := samplePower_nonneg file (n + 1)
    omega
  · intro h
    rw [(stateAfter_edge_eq file n).2]
    exact firstBlock_prevPower_step file n hW h
  · rcases hedge with h | ⟨h, _, _⟩ <;> omega
  · intro m hm hne
    have hm1 : (stateAfter file (m + 1)).prevPower = 1 := by
      rcases firstBlock_edge file m (by omega) with h | ⟨_, _, h⟩
      · exact absurd h hne
      · exact h
    have hmono := firstBlock_prevPower_mono file (m + 1) (n - (m + 1)) (by omega) hm1
    have e : m + 1 + (n - (m + 1)) = n := by omega
    rw [e] at hmono
    rcases hedge with h | ⟨_, h, _⟩
    · exact h
    · omega
  · intro hne
    rcases hedge with h | ⟨h1, hp0, _⟩
    · exact absurd h hne
    · have hun : (stateAfter file n).prevEdge < 0 := by
        by_contra hc
        have := (firstBlock_inv file n (by omega)).2 (by omega)
        omega
      exact ⟨h1, hun, stateAfter_first_edge file n hun hne⟩

/-- Witness for C15: the last sample of the only block of a one-block file. -/
theorem warm_up_block_witness :
    487 < SMOOTH_WINDOW ∧
    numSamples (List.replicate 976 255) = SMOOTH_WINDOW ∧
    (stateAfter (List.replicate 976 255) 488).bits = [] ∧
    readFile (List.replicate 976 255) = [] :=
  have h := warm_up_block (List.replicate 976 255) 487 (by decide)
  ⟨by decide, numSamples_replicate 976 255, h.2.2.2.2.2.2.1,
    h.2.2.2.2.2.2.2 (numSamples_replicate 976 255)⟩

/-! ## One block with a high first half -/

theorem riseBlock_length : riseBlock.length = 2 * SMOOTH_WINDOW := by
  unfold riseBlock
  rw [List.length_append, List.length_replicate, List.length_replicate]
  rfl

theorem riseBlock_bytes : ∀ b ∈ riseBlock, b < 256 := by
  intro b hb
  unfold riseBlock at hb
  rcases List.mem_append.1 hb with h | h
  · rw [List.eq_of_mem_replicate h]
    decide
  · rw [List.eq_of_mem_replicate h]
    decide

theorem riseBlock_getD (i : Nat) (hi : i < 976) :
    riseBlock.getD i 0 = if i < 488 then 255 else 127 := by
  unfold riseBlock
  rw [List.getD_eq_getElem?_getD]
  split_ifs with h
  · rw [List.getElem?_append_left (by rw [List.length_replicate]; exact h),
      List.getElem?_replicate_of_lt h]
    rfl
  · rw [List.getElem?_append_right (by rw [List.length_replicate]; omega),
      List.length_replicate, List.getElem?_replicate_of_lt (by omega)]
    rfl

theorem riseBlock_samplePower (n : Nat) (h1 : 1 ≤ n) (hn : n ≤ 488) :
    samplePower riseBlock n = if n ≤ 244 then 32768 else 0 := by
  obtain ⟨m, rfl⟩ : ∃ m, n = m + 1 := ⟨n - 1, by omega⟩
  rw [samplePower_bytes, riseBlock_getD (2 * m) (by omega),
    riseBlock_getD (2 * m + 1) (by omega)]
  split_ifs <;> first | rfl | omega

theorem riseBlock_numSamples : numSamples riseBlock = SMOOTH_WINDOW := by
  unfold numSamples
  rw [riseBlock_length, Nat.div_self (by decide)]
  rfl

theorem riseBlock_power : (stateAfter riseBlock SMOOTH_WINDOW).prevPower = 1 := by
  have hsum : (stateAfter riseBlock 244).runningSum = 7995392 := by
    rw [stateAfter_runningSum_window]
    have e : max 1 (244 + 1 - SMOOTH_WINDOW) = 1 := by
      rw [SMOOTH_WINDOW_eq]
      decide
    rw [e, Finset.sum_congr rfl (fun i hi => by
      rw [Finset.mem_Icc] at hi
      rw [riseBlock_samplePower i hi.1 (by omega), if_pos hi.2] :
      ∀ i ∈ Finset.Icc 1 244, samplePower riseBlock i = 32768)]
    rw [Finset.sum_const, Nat.card_Icc]
    rfl
  have h244 : (stateAfter riseBlock 244).prevPower = 1 := by
    rw [stateAfter_prevPower_eq, hsum]
    rfl
  exact firstBlock_prevPower_mono riseBlock 244 244 (by rw [SMOOTH_WINDOW_eq]) h244

/-- C11 as stated is refuted: no file of a single block (`2 * 488` bytes), of
whatever shape, makes the decoder detect a falling edge or emit `[1, 0]`. -/
theorem one_block_rise_fall_refuted :
    ¬ ∃ file : List Nat, file.length = 2 * SMOOTH_WINDOW ∧
      (∀ n, 1 ≤ n → n ≤ SMOOTH_WINDOW / 2 → threshold < samplePower file n) ∧
      (∀ n, SMOOTH_WINDOW / 2 < n → n ≤ SMOOTH_WINDOW → samplePower file n < threshold) ∧
      risingCount file SMOOTH_WINDOW = 1 ∧ fallingCount file SMOOTH_WINDOW = 1 ∧
      readFile file = [1, 0] := by
  rintro ⟨file, hlen, _, _, _, _, hout⟩
  have hn : numSamples file = SMOOTH_WINDOW := by
    unfold numSamples
    rw [hlen, Nat.div_self (by decide)]
    rfl
  rw [readFile_single_block file hn] at hout
  exact absurd hout (by decide)

/-- C11, amended: there is a single block of 488 sample pairs, its first 244
samples above the threshold and the others below it, on which the decoder,
started from its initial state, detects exactly one rising edge and no falling
edge and emits the empty bit sequence. -/
theorem one_block_rise_only :
    ∃ file : List Nat, file.length = 2 * SMOOTH_WINDOW ∧ (∀ b ∈ file, b < 256) ∧
      (∀ n, 1 ≤ n → n ≤ SMOOTH_WINDOW / 2 → threshold < samplePower file n) ∧
      (∀ n, SMOOTH_WINDOW / 2 < n → n ≤ SMOOTH_WINDOW → samplePower file n < threshold) ∧
      risingCount file SMOOTH_WINDOW = 1 ∧ fallingCount file SMOOTH_WINDOW = 0 ∧
      readFile file = [] := by
  have hf := firstBlock_fallingCount riseBlock SMOOTH_WINDOW (Nat.le_refl _)
  refine ⟨riseBlock, riseBlock_length, riseBlock_bytes, ?_, ?_, ?_, hf,
    readFile_single_block riseBlock riseBlock_numSamples⟩
  · intro n h1 hn
    rw [SMOOTH_WINDOW_eq] at hn
    rw [riseBlock_samplePower n h1 (by omega), if_pos (by omega)]
    decide
  · intro n h1 hn
    rw [SMOOTH_WINDOW_eq] at h1 hn
    rw [riseBlock_samplePower n (by omega) hn, if_neg (by omega)]
    decide
  · have h := rising_sub_falling riseBlock SMOOTH_WINDOW
    rw [hf, riseBlock_power] at h
    omega

--THMS
/-! ## Reference time, counter and output length along the run -/

theorem stateAfter_prevEdge_range (file : List Nat) (n : Nat) :
    (stateAfter file n).prevEdge = -1 ∨
      (1 ≤ (stateAfter file n).prevEdge ∧ (stateAfter file n).prevEdge ≤ (n : Int)) := by
  rw [(stateAfter_prevEdge file n).1]
  have := lastAccepted_le file n
  split_ifs with h
  · exact Or.inl rfl
  · right
    omega

theorem lastAccepted_eq_zero_iff (file : List Nat) (n : Nat) :
    lastAccepted file n = 0 ↔ ∀ m, m < n → (stateAfter file (m + 1)).edge = 0 := by
  induction n with
  | zero => exact ⟨fun _ m hm => absurd hm (Nat.not_lt_zero m), fun _ => rfl⟩
  | succ n ih =>
    have hacc := accepted_succ file n
    rw [lastAccepted_succ]
    constructor
    · intro h
      have hna : ¬ accepted file (n + 1) = true := by
        intro ha
        rw [if_pos ha] at h
        omega
      rw [if_neg hna] at h
      intro m hm
      rcases Nat.lt_succ_iff_lt_or_eq.1 hm with h1 | h1
      · exact ih.1 h m h1
      · rw [h1]
        by_contra hne
        exact hna (hacc.2 ⟨hne, Or.inl h⟩)
    · intro h
      have hna : ¬ accepted file (n + 1) = true := fun ha => (hacc.1 ha).1 (h n (by omega))
      rw [if_neg hna]
      exact ih.2 (fun m hm => h m (by omega))

/-- On a synced decoder a rising or falling edge either leaves `prevEdge` and
the output alone, or moves `prevEdge` to the current sample, at least 200
samples after the old one, and appends at most one bit. -/
theorem decodeEdge_synced_gap (s : State) (hset : 0 ≤ s.prevEdge)
    (he : s.edge = 1 ∨ s.edge = -1) :
    ((decodeEdge s).prevEdge = s.prevEdge ∧ (decodeEdge s).bits = s.bits) ∨
      ((decodeEdge s).prevEdge = s.dataCounter ∧ 200 ≤ s.dataCounter - s.prevEdge ∧
        (decodeEdge s).bits.length ≤ s.bits.length + 1) := by
  rcases he with he | he
  · obtain ⟨h1, _, h3, h4, _⟩ := decodeEdge_rising_synced s hset he
    rw [h4, h3, h1]
    by_cases hacc : 80000 < s.dataCounter - s.prevEdge ∨
        (200 ≤ s.dataCounter - s.prevEdge ∧ s.dataCounter - s.prevEdge ≤ 1100)
    · right
      rw [if_pos hacc]
      refine ⟨rfl, by omega, ?_⟩
      split_ifs <;> simp
    · left
      simp only [if_neg hacc]
      simp
  · obtain ⟨h1, _, h3, h4, _⟩ := decodeEdge_falling_synced s hset he
    rw [h4, h3, h1]
    by_cases hacc : 80000 < s.dataCounter - s.prevEdge ∨
        (400 ≤ s.dataCounter - s.prevEdge ∧ s.dataCounter - s.prevEdge ≤ 1400)
    · right
      rw [if_pos hacc]
      refine ⟨rfl, by omega, ?_⟩
      split_ifs <;> simp
    · left
      simp only [if_neg hacc]
      simp

theorem stateAfter_bits_bound (file : List Nat) (n : Nat) :
    ((stateAfter file n).prevEdge < 0 → (stateAfter file n).bits = []) ∧
    (0 ≤ (stateAfter file n).prevEdge →
      200 * ((stateAfter file n).bits.length : Int) + 1 ≤ (stateAfter file n).prevEdge) := by
  induction n with
  | zero => exact ⟨fun _ => rfl, fun h => absurd h (show ¬ (0 : Int) ≤ -1 by decide)⟩
  | succ n ih =>
    obtain ⟨i1, i2⟩ := ih
    have hedge := stateAfter_edge file n
    have hrange := stateAfter_prevEdge_range file n
    refine ⟨fun h => (stateAfter_unsynced file (n + 1) h).2, ?_⟩
    rw [stateAfter_succ, sampleStep] at hedge ⊢
    generalize hf : frontEnd (rawBlock file (n / SMOOTH_WINDOW)) (n % SMOOTH_WINDOW)
      (stateAfter file n) = f at hedge ⊢
    have hfp : f.prevEdge = (stateAfter file n).prevEdge := by rw [← hf]; simp
    have hfb : f.bits = (stateAfter file n).bits := by rw [← hf]; simp
    have hfd : f.dataCounter = n + 1 := by
      rw [← hf]
      simp [stateAfter_dataCounter]
    rw [(decodeEdge_frame f).2.2.2.1] at hedge
    intro hset'
    by_cases h0 : f.edge = 0
    · rw [decodeEdge_no_edge f h0] at hset' ⊢
      rw [hfp] at hset' ⊢
      rw [hfb]
      exact i2 hset'
    by_cases hun : (stateAfter file n).prevEdge < 0
    · obtain ⟨u1, _, u3⟩ := decodeEdge_unsynced f (by rw [hfp]; exact hun) h0
      rw [u1, u3, hfb, i1 hun, hfd]
      simp
    · have hs : 0 ≤ (stateAfter file n).prevEdge := by omega
      have i2' := i2 hs
      rcases decodeEdge_synced_gap f (by rw [hfp]; exact hs) (by omega) with ⟨g1, g2⟩ | ⟨g1, g2, g3⟩
      · rw [g1, g2, hfp, hfb]
        exact i2'
      · rw [g1, hfd]
        rw [hfd, hfp] at g2
        rw [hfb] at g3
        have g3' : ((decodeEdge f).bits.length : Int) ≤ (stateAfter file n).bits.length + 1 := by
          exact_mod_cast g3
        omega

/-- C18: output length bound.  After `n` samples the number `k` of emitted bits
satisfies `200 * k <= n`: nothing is emitted while `prevEdge` is unset, and once
it is set `200 * k + 1 <= prevEdge <= n`; the same bound holds for the bits
`readFile` returns. -/
theorem output_length_bound (file : List Nat) (n : Nat) :
    200 * (stateAfter file n).bits.length ≤ n ∧
    ((stateAfter file n).prevEdge < 0 → (stateAfter file n).bits = []) ∧
    (0 ≤ (stateAfter file n).prevEdge →
      200 * ((stateAfter file n).bits.length : Int) + 1 ≤ (stateAfter file n).prevEdge ∧
      (stateAfter file n).prevEdge ≤ (n : Int)) ∧
    200 * (readFile file).length ≤ numSamples file := by
  have key : ∀ m, 200 * (stateAfter file m).bits.length ≤ m := by
    intro m
    obtain ⟨b1, b2⟩ := stateAfter_bits_bound file m
    rcases stateAfter_prevEdge_range file m with h | ⟨h1, h2⟩
    · rw [b1 (by omega)]
      simp
    · have := b2 (by omega)
      omega
  obtain ⟨b1, b2⟩ := stateAfter_bits_bound file n
  refine ⟨key n, b1, fun h => ⟨b2 h, ?_⟩, ?_⟩
  · rcases stateAfter_prevEdge_range file n with h' | ⟨_, h2⟩
    · omega
    · exact h2
  · rw [readFile_eq_stateAfter]
    exact key _

theorem stateAfter_halfTime_nonneg (file : List Nat) (n : Nat) :
    0 ≤ (stateAfter file n).halfTime := by
  induction n with
  | zero => exact le_refl _
  | succ n ih =>
    have hedge := stateAfter_edge file n
    rw [stateAfter_succ, sampleStep] at hedge ⊢
    generalize hf : frontEnd (rawBlock file (n / SMOOTH_WINDOW)) (n % SMOOTH_WINDOW)
      (stateAfter file n) = f at hedge ⊢
    have hfp : f.prevEdge = (stateAfter file n).prevEdge := by rw [← hf]; simp
    have hfh : f.halfTime = (stateAfter file n).halfTime := by rw [← hf]; simp
    rw [(decodeEdge_frame f).2.2.2.1] at hedge
    by_cases h0 : f.edge = 0
    · rw [decodeEdge_no_edge f h0, hfh]
      exact ih
    by_cases hun : f.prevEdge < 0
    · rw [(decodeEdge_unsynced f hun h0).2.1, hfh]
      exact ih
    · rcases hedge with h | h | h
      · exact absurd h h0
      · rw [(decodeEdge_rising_synced f (by omega) h).2.1, hfh]
        split_ifs <;> omega
      · rw [(decodeEdge_falling_synced f (by omega) h).2.1, hfh]
        split_ifs <;> omega

/-- C20: sentinel and state invariant.  After `n` samples `prevEdge` is `-1` or
lies in `1 .. dataCounter`; it is negative exactly when no edge has been
detected so far; once set it stays set and never decreases; `halfTime` is not
negative; and the interval computed on an edge is not negative. -/
theorem sentinel_invariant (file : List Nat) (n k : Nat) :
    ((stateAfter file n).prevEdge = -1 ∨
      (1 ≤ (stateAfter file n).prevEdge ∧
        (stateAfter file n).prevEdge ≤ (stateAfter file n).dataCounter)) ∧
    ((stateAfter file n).prevEdge < 0 ↔ ∀ m, m < n → (stateAfter file (m + 1)).edge = 0) ∧
    (0 ≤ (stateAfter file n).prevEdge →
      0 ≤ (stateAfter file (n + k)).prevEdge ∧
      (stateAfter file n).prevEdge ≤ (stateAfter file (n + k)).prevEdge) ∧
    0 ≤ (stateAfter file n).halfTime ∧
    ((stateAfter file (n + 1)).edge ≠ 0 → 0 ≤ (stateAfter file (n + 1)).edgeCountDiff) := by
  have hr := stateAfter_prevEdge_range file n
  have hp := (stateAfter_prevEdge file n).1
  refine ⟨?_, ?_, ?_, stateAfter_halfTime_nonneg file n, ?_⟩
  · rw [stateAfter_dataCounter]
    exact hr
  · rw [← lastAccepted_eq_zero_iff, hp]
    split_ifs with h
    · exact ⟨fun _ => h, fun _ => by decide⟩
    · exact ⟨fun h' => by omega, fun h' => absurd h' h⟩
  · intro hset
    have hp' := (stateAfter_prevEdge file (n + k)).1
    have hm := lastAccepted_mono file n k
    rw [hp] at hset ⊢
    rw [hp']
    split_ifs at hset ⊢ with h1 h2 h2
    · omega
    · omega
    · omega
    · omega
  · intro he
    rw [stateAfter_edgeCountDiff file n he]
    split_ifs with h
    · omega
    · rcases hr with h' | ⟨_, h2⟩ <;> omega

/-! ## Parity of the half-unit counter -/

/-- Effect of a rising edge on `halfTime` and the output, in terms of the
interval the decoder computed. -/
theorem decodeEdge_rising_fields (s : State) (he : s.edge = 1) :
    ((decodeEdge s).halfTime =
      if 80000 < (decodeEdge s).edgeCountDiff then 0
      else if 200 ≤ (decodeEdge s).edgeCountDiff ∧ (decodeEdge s).edgeCountDiff < 615
        then s.halfTime + 1
      else if 615 ≤ (decodeEdge s).edgeCountDiff ∧ (decodeEdge s).edgeCountDiff ≤ 1100
        then s.halfTime + 2
      else s.halfTime) ∧
    ((decodeEdge s).bits =
      if (80000 < (decodeEdge s).edgeCountDiff ∨
          (200 ≤ (decodeEdge s).edgeCountDiff ∧ (decodeEdge s).edgeCountDiff ≤ 1100)) ∧
        (decodeEdge s).halfTime % 2 = 0
      then s.bits ++ [1] else s.bits) := by
  rw [decodeEdge_rising s he]
  simp only [emit_bits, emit_frame, risingBands_fields, risingBands_frame, timing_frame]
  refine ⟨trivial, ?_⟩
  by_cases hacc : 80000 < (timing s).edgeCountDiff ∨
      (200 ≤ (timing s).edgeCountDiff ∧ (timing s).edgeCountDiff ≤ 1100)
  · simp only [if_pos hacc, hacc, true_and]
    simp
  · simp only [if_neg hacc, hacc, false_and]
    simp

theorem decodeEdge_falling_fields (s : State) (he : s.edge = -1) :
    ((decodeEdge s).halfTime =
      if 80000 < (decodeEdge s).edgeCountDiff then 0
      else if 400 ≤ (decodeEdge s).edgeCountDiff ∧ (decodeEdge s).edgeCountDiff < 850
        then s.halfTime + 1
      else if 850 ≤ (decodeEdge s).edgeCountDiff ∧ (decodeEdge s).edgeCountDiff ≤ 1400
        then s.halfTime + 2
      else s.halfTime) ∧
    ((decodeEdge s).bits =
      if (80000 < (decodeEdge s).edgeCountDiff ∨
          (400 ≤ (decodeEdge s).edgeCountDiff ∧ (decodeEdge s).edgeCountDiff ≤ 1400)) ∧
        (decodeEdge s).halfTime % 2 = 0
      then s.bits ++ [0] else s.bits) := by
  rw [decodeEdge_falling s he]
  simp only [emit_bits, emit_frame, fallingBands_fields, fallingBands_frame, timing_frame]
  refine ⟨trivial, ?_⟩
  by_cases hacc : 80000 < (timing s).edgeCountDiff ∨
      (400 ≤ (timing s).edgeCountDiff ∧ (timing s).edgeCountDiff ≤ 1400)
  · simp only [if_pos hacc, hacc, true_and]
    simp
  · simp only [if_neg hacc, hacc, false_and]
    simp

theorem halfCount_succ (file : List Nat) (n : Nat) :
    halfCount file (n + 1) =
      if isResync (stateAfter file (n + 1)) then 0
      else if isHalfUnit (stateAfter file (n + 1)) then halfCount file n + 1
      else halfCount file n :=
  rfl

theorem isResync_iff (t : State) :
    isResync t = true ↔ (t.edge = 1 ∨ t.edge = -1) ∧ 80000 < t.edgeCountDiff := by
  unfold isResync
  exact decide_eq_true_iff

theorem isHalfUnit_iff (t : State) :
    isHalfUnit t = true ↔
      (t.edge = 1 ∧ 200 ≤ t.edgeCountDiff ∧ t.edgeCountDiff < 615) ∨
      (t.edge = -1 ∧ 400 ≤ t.edgeCountDiff ∧ t.edgeCountDiff < 850) := by
  unfold isHalfUnit
  exact decide_eq_true_iff

theorem isFullUnit_iff (t : State) :
    isFullUnit t = true ↔
      (t.edge = 1 ∧ 615 ≤ t.edgeCountDiff ∧ t.edgeCountDiff ≤ 1100) ∨
      (t.edge = -1 ∧ 850 ≤ t.edgeCountDiff ∧ t.edgeCountDiff ≤ 1400) := by
  unfold isFullUnit
  exact decide_eq_true_iff

/-- One sample changes `halfTime` as the class of its edge says. -/
theorem stateAfter_halfTime_succ (file : List Nat) (n : Nat) :
    (stateAfter file (n + 1)).halfTime =
      if isResync (stateAfter file (n + 1)) then 0
      else if isHalfUnit (stateAfter file (n + 1)) then (stateAfter file n).halfTime + 1
      else if isFullUnit (stateAfter file (n + 1)) then (stateAfter file n).halfTime + 2
      else (stateAfter file n).halfTime := by
  have hedge := stateAfter_edge file n
  have hr := isResync_iff (stateAfter file (n + 1))
  have hh := isHalfUnit_iff (stateAfter file (n + 1))
  have hu := isFullUnit_iff (stateAfter file (n + 1))
  rw [stateAfter_succ, sampleStep] at hedge hr hh hu ⊢
  generalize hf : frontEnd (rawBlock file (n / SMOOTH_WINDOW)) (n % SMOOTH_WINDOW)
    (stateAfter file n) = f at hedge hr hh hu ⊢
  have hfh : f.halfTime = (stateAfter file n).halfTime := by rw [← hf]; simp
  have hfe : (decodeEdge f).edge = f.edge := (decodeEdge_frame f).2.2.2.1
  rw [hfe] at hedge hr hh hu
  rw [← hfh]
  rcases hedge with h | h | h
  · have e1 : ¬ isResync (decodeEdge f) = true := fun c => by have := hr.1 c; omega
    have e2 : ¬ isHalfUnit (decodeEdge f) = true := fun c => by have := hh.1 c; omega
    have e3 : ¬ isFullUnit (decodeEdge f) = true := fun c => by have := hu.1 c; omega
    rw [if_neg e1, if_neg e2, if_neg e3, decodeEdge_no_edge f h]
  · have hT := (decodeEdge_rising_fields f h).1
    generalize (decodeEdge f).edgeCountDiff = D at hr hh hu hT
    generalize (decodeEdge f).halfTime = T at hT ⊢
    by_cases c1 : isResync (decodeEdge f) = true
    · have := hr.1 c1
      rw [if_pos c1, hT, if_pos this.2]
    · have n1 : ¬ 80000 < D := fun c => c1 (hr.2 ⟨Or.inl h, c⟩)
      rw [if_neg c1, hT, if_neg n1]
      by_cases c2 : isHalfUnit (decodeEdge f) = true
      · have : 200 ≤ D ∧ D < 615 := by
          rcases hh.1 c2 with ⟨_, a, b⟩ | ⟨a, _, _⟩
          · exact ⟨a, b⟩
          · omega
        rw [if_pos c2, if_pos this]
      · have n2 : ¬ (200 ≤ D ∧ D < 615) := fun c => c2 (hh.2 (Or.inl ⟨h, c⟩))
        rw [if_neg c2, if_neg n2]
        by_cases c3 : isFullUnit (decodeEdge f) = true
        · have : 615 ≤ D ∧ D ≤ 1100 := by
            rcases hu.1 c3 with ⟨_, a, b⟩ | ⟨a, _, _⟩
            · exact ⟨a, b⟩
            · omega
          rw [if_pos c3, if_pos this]
        · have n3 : ¬ (615 ≤ D ∧ D ≤ 1100) := fun c => c3 (hu.2 (Or.inl ⟨h, c⟩))
          rw [if_neg c3, if_neg n3]
  · have hT := (decodeEdge_falling_fields f h).1
    generalize (decodeEdge f).edgeCountDiff = D at hr hh hu hT
    generalize (decodeEdge f).halfTime = T at hT ⊢
    by_cases c1 : isResync (decodeEdge f) = true
    · have := hr.1 c1
      rw [if_pos c1, hT, if_pos this.2]
    · have n1 : ¬ 80000 < D := fun c => c1 (hr.2 ⟨Or.inr h, c⟩)
      rw [if_neg c1, hT, if_neg n1]
      by_cases c2 : isHalfUnit (decodeEdge f) = true
      · have : 400 ≤ D ∧ D < 850 := by
          rcases hh.1 c2 with ⟨a, _, _⟩ | ⟨_, a, b⟩
          · omega
          · exact ⟨a, b⟩
        rw [if_pos c2, if_pos this]
      · have n2 : ¬ (400 ≤ D ∧ D < 850) := fun c => c2 (hh.2 (Or.inr ⟨h, c⟩))
        rw [if_neg c2, if_neg n2]
        by_cases c3 : isFullUnit (decodeEdge f) = true
        · have : 850 ≤ D ∧ D ≤ 1400 := by
            rcases hu.1 c3 with ⟨a, _, _⟩ | ⟨_, a, b⟩
            · omega
            · exact ⟨a, b⟩
          rw [if_pos c3, if_pos this]
        · have n3 : ¬ (850 ≤ D ∧ D ≤ 1400) := fun c => c3 (hu.2 (Or.inr ⟨h, c⟩))
          rw [if_neg c3, if_neg n3]

theorem stateAfter_halfTime_parity (file : List Nat) (n : Nat) :
    (stateAfter file n).halfTime % 2 = (halfCount file n : Int) % 2 := by
  induction n with
  | zero => rfl
  | succ n ih =>
    rw [stateAfter_halfTime_succ, halfCount_succ]
    split_ifs
    · rfl
    · push_cast
      omega
    · omega
    · exact ih

theorem append_singleton_ne (l : List Int) (b : Int) : l ++ [b] ≠ l := by
  intro h
  have := congrArg List.length h
  simp at this

theorem ite_append_iff (l : List Int) (b : Int) (c : Prop) [Decidable c] :
    ((if c then l ++ [b] else l) = l ++ [b] ↔ c) ∧ ((if c then l ++ [b] else l) = l ↔ ¬ c) := by
  by_cases h : c
  · rw [if_pos h]
    exact ⟨⟨fun _ => h, fun _ => rfl⟩,
      ⟨fun e => absurd e (append_singleton_ne l b), fun e => absurd h e⟩⟩
  · rw [if_neg h]
    exact ⟨⟨fun e => absurd e.symm (append_singleton_ne l b), fun e => absurd e h⟩,
      ⟨fun _ => h, fun _ => rfl⟩⟩

/-- An accepted edge appends its direction bit exactly when `halfTime` is even
after the update. -/
theorem decodeEdge_accepted_bits (s : State)
    (hacc : isHalfUnit (decodeEdge s) = true ∨ isFullUnit (decodeEdge s) = true) :
    (decodeEdge s).bits =
      if (decodeEdge s).halfTime % 2 = 0 then s.bits ++ [if s.edge = 1 then 1 else 0]
      else s.bits := by
  have hfe : (decodeEdge s).edge = s.edge := (decodeEdge_frame s).2.2.2.1
  have hc : (s.edge = 1 ∧ 200 ≤ (decodeEdge s).edgeCountDiff ∧
        (decodeEdge s).edgeCountDiff ≤ 1100) ∨
      (s.edge = -1 ∧ 400 ≤ (decodeEdge s).edgeCountDiff ∧
        (decodeEdge s).edgeCountDiff ≤ 1400) := by
    rcases hacc with h | h
    · have := (isHalfUnit_iff (decodeEdge s)).1 h
      rw [hfe] at this
      omega
    · have := (isFullUnit_iff (decodeEdge s)).1 h
      rw [hfe] at this
      omega
  rcases hc with ⟨he, a, b⟩ | ⟨he, a, b⟩
  · have hB := (decodeEdge_rising_fields s he).2
    have hacc' : 80000 < (decodeEdge s).edgeCountDiff ∨
        (200 ≤ (decodeEdge s).edgeCountDiff ∧ (decodeEdge s).edgeCountDiff ≤ 1100) :=
      Or.inr ⟨a, b⟩
    rw [hB, he]
    simp only [hacc', true_and, if_true]
  · have hB := (decodeEdge_falling_fields s he).2
    have hacc' : 80000 < (decodeEdge s).edgeCountDiff ∨
        (400 ≤ (decodeEdge s).edgeCountDiff ∧ (decodeEdge s).edgeCountDiff ≤ 1400) :=
      Or.inr ⟨a, b⟩
    rw [hB, he]
    simp only [hacc', true_and, show ¬ ((-1 : Int) = 1) by decide, if_false]

theorem decodeEdge_full_halfTime (s : State) (h : isFullUnit (decodeEdge s) = true) :
    (decodeEdge s).halfTime = s.halfTime + 2 := by
  have hfe : (decodeEdge s).edge = s.edge := (decodeEdge_frame s).2.2.2.1
  have hc := (isFullUnit_iff (decodeEdge s)).1 h
  rw [hfe] at hc
  rcases hc with ⟨he, a, b⟩ | ⟨he, a, b⟩
  · rw [(decodeEdge_rising_fields s he).1, if_neg (by omega), if_neg (by omega), if_pos ⟨a, b⟩]
  · rw [(decodeEdge_falling_fields s he).1, if_neg (by omega), if_neg (by omega), if_pos ⟨a, b⟩]

theorem decodeEdge_half_halfTime (s : State) (h : isHalfUnit (decodeEdge s) = true) :
    (decodeEdge s).halfTime = s.halfTime + 1 := by
  have hfe : (decodeEdge s).edge = s.edge := (decodeEdge_frame s).2.2.2.1
  have hc := (isHalfUnit_iff (decodeEdge s)).1 h
  rw [hfe] at hc
  rcases hc with ⟨he, a, b⟩ | ⟨he, a, b⟩
  · rw [(decodeEdge_rising_fields s he).1, if_neg (by omega), if_pos ⟨a, b⟩]
  · rw [(decodeEdge_falling_fields s he).1, if_neg (by omega), if_pos ⟨a, b⟩]

/-- C16: parity tracks half-unit pulses only.  After `n` samples `halfTime` has
the parity of the number of half-unit edges since the last resync (or since the
start); a full-unit edge keeps the parity and appends its bit iff `halfTime` was
even before it; a half-unit edge flips the parity and appends its bit iff
`halfTime` was odd before it. -/
theorem parity_tracks_half_units (file : List Nat) (n : Nat) (s : State) :
    (stateAfter file n).halfTime % 2 = (halfCount file n : Int) % 2 ∧
    (isFullUnit (decodeEdge s) = true →
      (decodeEdge s).halfTime % 2 = s.halfTime % 2 ∧
      ((decodeEdge s).bits = s.bits ++ [if s.edge = 1 then 1 else 0] ↔ s.halfTime % 2 = 0) ∧
      ((decodeEdge s).bits = s.bits ↔ s.halfTime % 2 = 1)) ∧
    (isHalfUnit (decodeEdge s) = true →
      (decodeEdge s).halfTime % 2 = (s.halfTime + 1) % 2 ∧
      ((decodeEdge s).bits = s.bits ++ [if s.edge = 1 then 1 else 0] ↔ s.halfTime % 2 = 1) ∧
      ((decodeEdge s).bits = s.bits ↔ s.halfTime % 2 = 0)) := by
  refine ⟨stateAfter_halfTime_parity file n, ?_, ?_⟩
  · intro hfull
    have hT := decodeEdge_full_halfTime s hfull
    have hB := decodeEdge_accepted_bits s (Or.inr hfull)
    obtain ⟨i1, i2⟩ := ite_append_iff s.bits (if s.edge = 1 then 1 else 0)
      ((decodeEdge s).halfTime % 2 = 0)
    rw [← hB] at i1 i2
    rw [i1, i2, hT]
    refine ⟨?_, ?_, ?_⟩ <;> omega
  · intro hhalf
    have hT := decodeEdge_half_halfTime s hhalf
    have hB := decodeEdge_accepted_bits s (Or.inl hhalf)
    obtain ⟨i1, i2⟩ := ite_append_iff s.bits (if s.edge = 1 then 1 else 0)
      ((decodeEdge s).halfTime % 2 = 0)
    rw [← hB] at i1 i2
    rw [i1, i2, hT]
    refine ⟨?_, ?_, ?_⟩ <;> omega

/-- Witness for C16: a rising full-unit edge (interval 700) on an even
`halfTime` appends its bit and keeps the parity. -/
theorem parity_tracks_half_units_witness :
    isFullUnit (decodeEdge (atEdge 1 1700 1000 4)) = true ∧
    (decodeEdge (atEdge 1 1700 1000 4)).halfTime % 2 = (atEdge 1 1700 1000 4).halfTime % 2 ∧
    (decodeEdge (atEdge 1 1700 1000 4)).bits = (atEdge 1 1700 1000 4).bits ++ [1] :=
  have h := (parity_tracks_half_units [] 0 (atEdge 1 1700 1000 4)).2.1 (by decide)
  ⟨by decide, h.1, h.2.1.2 (by decide)⟩

/-! ## The block-indexed buffer against an explicit circular buffer -/

theorem circularStep_eq_sampleStep (raw : List Nat) (j : Nat) (s : State) :
    circularStep (instPower raw j) { st := s, pos := j } =
      { st := sampleStep raw j s, pos := (j + 1) % SMOOTH_WINDOW } :=
  rfl

theorem circularAfter_eq (file : List Nat) (n : Nat) :
    circularAfter file n = { st := stateAfter file n, pos := n % SMOOTH_WINDOW } := by
  induction n with
  | zero => rfl
  | succ n ih =>
    show circularStep (samplePower file (n + 1)) (circularAfter file n) = _
    rw [ih, samplePower_succ, circularStep_eq_sampleStep, stateAfter_succ]
    have e : (n % SMOOTH_WINDOW + 1) % SMOOTH_WINDOW = (n + 1) % SMOOTH_WINDOW := by
      rw [SMOOTH_WINDOW_eq]
      omega
    rw [e]

/-- C14: the block-indexed buffer refines the circular buffer.  After every
sample the source's state (buffer indexed by the position `j` inside the
block) is the state of the decoder with an explicit circular buffer updated by
`running_sum += power - buffer[pos]; buffer[pos] = power; pos = (pos+1) mod W`
from `pos = 0` and a zero buffer: same running sum, power state, edge and
bits, and `readFile` returns the bits of the circular-buffer decoder. -/
theorem block_index_refines_circular (file : List Nat) (n : Nat) :
    (circularAfter file n).st = stateAfter file n ∧
    (circularAfter file n).pos = n % SMOOTH_WINDOW ∧
    (circularAfter file n).st.runningSum = (stateAfter file n).runningSum ∧
    (circularAfter file n).st.power = (stateAfter file n).power ∧
    (circularAfter file n).st.edge = (stateAfter file n).edge ∧
    (circularAfter file n).st.bits = (stateAfter file n).bits ∧
    readFile file = (circularAfter file (numSamples file)).st.bits := by
  have h := circularAfter_eq file n
  have hN := circularAfter_eq file (numSamples file)
  rw [h, hN, readFile_eq_stateAfter]
  exact ⟨rfl, rfl, rfl, rfl, rfl, rfl, rfl⟩

/-! ## Single precision is exact on the values of the run -/

theorem roundF32_of_lt (x : Int) (h : x.natAbs < 2 ^ 24) : roundF32 x = x := by
  have hlog : Nat.log2 x.natAbs + 1 - 24 = 0 := by
    by_cases h0 : x.natAbs = 0
    · rw [h0, Nat.log2_zero]
    · have := (Nat.log2_lt h0).2 h
      omega
  unfold roundF32
  simp only [hlog, Nat.pow_zero, Nat.div_one, Nat.mod_one, Nat.mul_zero, Nat.mul_one]
  rw [if_neg (by omega)]
  exact Int.sign_mul_natAbs x

theorem roundF32_of_bounds (x : Int) (h1 : -16777216 < x) (h2 : x < 16777216) :
    roundF32 x = x := by
  apply roundF32_of_lt
  omega

theorem instPower_le (raw : List Nat) (j : Nat) (hI : raw.getD (2 * j + 0) 0 < 256)
    (hQ : raw.getD (2 * j + 1) 0 < 256) : instPower raw j ≤ 32768 := by
  unfold instPower
  generalize raw.getD (2 * j + 0) 0 = a at hI
  generalize raw.getD (2 * j + 1) 0 = b at hQ
  have ha : ((a : Int) - 127) * ((a : Int) - 127) ≤ 16384 := by
    nlinarith [mul_nonneg (show (0 : Int) ≤ (a : Int) - 127 + 128 by omega)
      (show (0 : Int) ≤ 128 - ((a : Int) - 127) by omega)]
  have hb : ((b : Int) - 127) * ((b : Int) - 127) ≤ 16384 := by
    nlinarith [mul_nonneg (show (0 : Int) ≤ (b : Int) - 127 + 128 by omega)
      (show (0 : Int) ≤ 128 - ((b : Int) - 127) by omega)]
  show ((a : Int) - 127) * ((a : Int) - 127) + ((b : Int) - 127) * ((b : Int) - 127) ≤ 32768
  omega

theorem instPowerF32_eq (raw : List Nat) (j : Nat) (hI : raw.getD (2 * j + 0) 0 < 256)
    (hQ : raw.getD (2 * j + 1) 0 < 256) : instPowerF32 raw j = instPower raw j := by
  have hle := instPower_le raw j hI hQ
  unfold instPower at hle
  unfold instPowerF32 instPower
  generalize raw.getD (2 * j + 0) 0 = a at hI hle
  generalize raw.getD (2 * j + 1) 0 = b at hQ hle
  have ha0 : 0 ≤ ((a : Int) - 127) * ((a : Int) - 127) := mul_self_nonneg _
  have hb0 : 0 ≤ ((b : Int) - 127) * ((b : Int) - 127) := mul_self_nonneg _
  simp only [] at hle ⊢
  rw [roundF32_of_bounds (a : Int) (by omega) (by omega),
    roundF32_of_bounds (b : Int) (by omega) (by omega),
    roundF32_of_bounds ((a : Int) - 127) (by omega) (by omega),
    roundF32_of_bounds ((b : Int) - 127) (by omega) (by omega),
    roundF32_of_bounds (((a : Int) - 127) * ((a : Int) - 127)) (by omega) (by omega),
    roundF32_of_bounds (((b : Int) - 127) * ((b : Int) - 127)) (by omega) (by omega),
    roundF32_of_bounds _ (by omega) (by omega)]

theorem rawBlock_getD_byte (file : List Nat) (hbytes : ∀ b ∈ file, b < 256) (k i : Nat) :
    (rawBlock file k).getD i 0 < 256 := by
  by_cases hi : i < (rawBlock file k).length
  · rw [List.getD_eq_getElem _ _ hi]
    apply hbytes
    have hmem : (rawBlock file k)[i] ∈ rawBlock file k := List.getElem_mem _
    exact List.mem_of_mem_drop (List.mem_of_mem_take hmem)
  · rw [List.getD_eq_default _ _ (by omega)]
    decide

theorem samplePower_le (file : List Nat) (hbytes : ∀ b ∈ file, b < 256) (n : Nat) :
    samplePower file n ≤ 32768 := by
  unfold samplePower
  split_ifs
  · decide
  · exact instPower_le _ _ (rawBlock_getD_byte file hbytes _ _) (rawBlock_getD_byte file hbytes _ _)

theorem stateAfter_buffer_bounds (file : List Nat) (hbytes : ∀ b ∈ file, b < 256) (n j : Nat) :
    0 ≤ (stateAfter file n).buffer.getD j 0 ∧ (stateAfter file n).buffer.getD j 0 ≤ 32768 := by
  by_cases hj : j < SMOOTH_WINDOW
  · rw [stateAfter_buffer_getD file n j hj]
    exact ⟨samplePower_nonneg file _, samplePower_le file hbytes _⟩
  · rw [List.getD_eq_default _ _ (by rw [stateAfter_buffer_length]; omega)]
    exact ⟨le_refl _, by decide⟩

theorem stateAfter_runningSum_bounds (file : List Nat) (hbytes : ∀ b ∈ file, b < 256)
    (n : Nat) :
    0 ≤ (stateAfter file n).runningSum ∧ (stateAfter file n).runningSum ≤ 15990784 := by
  rw [stateAfter_runningSum_window]
  constructor
  · exact Finset.sum_nonneg (fun i _ => samplePower_nonneg file i)
  · have h : ∑ i ∈ Finset.Icc (max 1 (n + 1 - SMOOTH_WINDOW)) n, samplePower file i ≤
        ((Finset.Icc (max 1 (n + 1 - SMOOTH_WINDOW)) n).card : Int) * 32768 := by
      have h' := Finset.sum_le_card_nsmul (Finset.Icc (max 1 (n + 1 - SMOOTH_WINDOW)) n)
        (samplePower file) 32768 (fun i _ => samplePower_le file hbytes i)
      rw [nsmul_eq_mul] at h'
      exact h'
    have hcard : (Finset.Icc (max 1 (n + 1 - SMOOTH_WINDOW)) n).card ≤ 488 := by
      rw [Nat.card_Icc, SMOOTH_WINDOW_eq]
      omega
    have hc : (((Finset.Icc (max 1 (n + 1 - SMOOTH_WINDOW)) n).card : Nat) : Int) ≤ 488 := by
      exact_mod_cast hcard
    omega

theorem frontEndF32_eq (raw : List Nat) (j : Nat) (s : State)
    (hI : raw.getD (2 * j + 0) 0 < 256) (hQ : raw.getD (2 * j + 1) 0 < 256)
    (hb : 0 ≤ s.buffer.getD j 0 ∧ s.buffer.getD j 0 ≤ 32768)
    (hs : 0 ≤ (frontEnd raw j s).runningSum ∧ (frontEnd raw j s).runningSum ≤ 15990784) :
    frontEndF32 raw j s = frontEnd raw j s := by
  have hp := instPowerF32_eq raw j hI hQ
  have hp0 := instPower_nonneg raw j
  have hp1 := instPower_le raw j hI hQ
  rw [(frontEnd_runningSum raw j s).1] at hs
  have h1 : roundF32 (instPower raw j - s.buffer.getD j 0) = instPower raw j - s.buffer.getD j 0 :=
    roundF32_of_bounds _ (by omega) (by omega)
  have h2 : roundF32 (s.runningSum + (instPower raw j - s.buffer.getD j 0)) =
      s.runningSum + (instPower raw j - s.buffer.getD j 0) :=
    roundF32_of_bounds _ (by omega) (by omega)
  have h3 : roundF32 (roundF32 threshold * roundF32 (SMOOTH_WINDOW : Int)) =
      threshold * (SMOOTH_WINDOW : Int) := by
    have a : roundF32 threshold = threshold := roundF32_of_lt _ (by decide)
    have b : roundF32 (SMOOTH_WINDOW : Int) = (SMOOTH_WINDOW : Int) :=
      roundF32_of_lt _ (by decide)
    rw [a, b]
    exact roundF32_of_lt _ (by decide)
  unfold frontEndF32 frontEnd
  simp only [hp, h1, h2, h3]

theorem stateAfterF32_eq (file : List Nat) (hbytes : ∀ b ∈ file, b < 256) (n : Nat) :
    stateAfterF32 file n = stateAfter file n := by
  induction n with
  | zero => rfl
  | succ n ih =>
    show sampleStepF32 _ _ (stateAfterF32 file n) = _
    rw [ih, stateAfter_succ, sampleStepF32, sampleStep,
      frontEndF32_eq _ _ _ (rawBlock_getD_byte file hbytes _ _)
        (rawBlock_getD_byte file hbytes _ _) (stateAfter_buffer_bounds file hbytes n _)]
    have h := stateAfter_runningSum_bounds file hbytes (n + 1)
    rw [stateAfter_succ, sampleStep, (decodeEdge_frame _).1] at h
    exact h

/-- C19: exact integer arithmetic.  On a file of bytes every instantaneous
power lies in `[0, 32768]`, every buffer cell too, and the running sum after
every sample lies in `[0, 488 * 32768 = 15990784]`, below `2^24`, as is the
threshold product `6800 * 488 = 3318400`; single-precision rounding leaves each
of these values unchanged, and the decoder run with every `float` result
rounded to single precision has after every sample the state, and at the end
the bits, of the decoder over the integers. -/
theorem exact_integer_arithmetic (file : List Nat) (hbytes : ∀ b ∈ file, b < 256)
    (n j : Nat) :
    (0 ≤ samplePower file n ∧ samplePower file n ≤ 32768) ∧
    (0 ≤ (stateAfter file n).buffer.getD j 0 ∧ (stateAfter file n).buffer.getD j 0 ≤ 32768) ∧
    (0 ≤ (stateAfter file n).runningSum ∧ (stateAfter file n).runningSum ≤ 15990784) ∧
    ((488 : Int) * 32768 = 15990784 ∧ (15990784 : Int) < 2 ^ 24 ∧
      threshold * (SMOOTH_WINDOW : Int) = 3318400 ∧ (3318400 : Int) < 2 ^ 24) ∧
    (roundF32 (samplePower file n) = samplePower file n ∧
      roundF32 ((stateAfter file n).buffer.getD j 0) = (stateAfter file n).buffer.getD j 0 ∧
      roundF32 (stateAfter file n).runningSum = (stateAfter file n).runningSum ∧
      roundF32 (threshold * (SMOOTH_WINDOW : Int)) = threshold * (SMOOTH_WINDOW : Int)) ∧
    stateAfterF32 file n = stateAfter file n ∧
    (stateAfterF32 file n).power = (stateAfter file n).power ∧
    readFile file = (stateAfterF32 file (numSamples file)).bits := by
  have hp := samplePower_le file hbytes n
  have hp0 := samplePower_nonneg file n
  have hb := stateAfter_buffer_bounds file hbytes n j
  have hs := stateAfter_runningSum_bounds file hbytes n
  have he := stateAfterF32_eq file hbytes
  refine ⟨⟨hp0, hp⟩, hb, hs, ⟨by decide, by decide, rfl, by decide⟩,
    ⟨roundF32_of_bounds _ (by omega) (by omega), roundF32_of_bounds _ (by omega) (by omega),
      roundF32_of_bounds _ (by omega) (by omega), roundF32_of_lt _ (by decide)⟩,
    he n, by rw [he n], ?_⟩
  rw [he, readFile_eq_stateAfter]

/-- Witness for C19: the last sample of a block of bytes 255, the largest
power. -/
theorem exact_integer_arithmetic_witness :
    (∀ b ∈ List.replicate 976 255, b < 256) ∧
    (stateAfter (List.replicate 976 255) 488).runningSum ≤ 15990784 ∧
    stateAfterF32 (List.replicate 976 255) 488 = stateAfter (List.replicate 976 255) 488 :=
  have hb : ∀ b ∈ List.replicate 976 255, b < 256 := fun b h => by
    rw [List.eq_of_mem_replicate h]
    decide
  have h := exact_integer_arithmetic (List.replicate 976 255) hb 488 0
  ⟨hb, h.2.2.1.2, h.2.2.2.2.2.1⟩

--THMS
/-! ## A concrete first edge -/

theorem riseBlock_runningSum (n : Nat) (hn : n ≤ 244) :
    (stateAfter riseBlock n).runningSum = 32768 * (n : Int) := by
  rw [stateAfter_runningSum_window]
  have e : max 1 (n + 1 - SMOOTH_WINDOW) = 1 := by
    rw [SMOOTH_WINDOW_eq]
    omega
  rw [e, Finset.sum_congr rfl (fun i hi => by
    rw [Finset.mem_Icc] at hi
    rw [riseBlock_samplePower i hi.1 (by omega), if_pos (by omega)] :
    ∀ i ∈ Finset.Icc 1 n, samplePower riseBlock i = 32768)]
  rw [Finset.sum_const, Nat.card_Icc, nsmul_eq_mul, Nat.add_sub_cancel]
  ring

theorem riseBlock_prevPower (n : Nat) (hn : n ≤ 244) :
    (stateAfter riseBlock n).prevPower = if 102 ≤ n then 1 else 0 := by
  rw [stateAfter_prevPower_eq, riseBlock_runningSum n hn]
  split_ifs <;> omega

/-- Witness for C17: on `riseBlock` no edge is detected in samples 1..101 and
the first edge, at sample 102, is rising. -/
theorem edges_alternate_witness : (stateAfter riseBlock (101 + 1)).edge = 1 :=
  (edges_alternate riseBlock 101 0).1
    (fun i hi => by
      rw [(stateAfter_edge_eq riseBlock i).1, riseBlock_prevPower (i + 1) (by omega),
        riseBlock_prevPower i (by omega), if_neg (by omega), if_neg (by omega)]
      rfl)
    (by
      rw [(stateAfter_edge_eq riseBlock 101).1, riseBlock_prevPower (101 + 1) (by decide),
        riseBlock_prevPower 101 (by decide)]
      decide)

/-! ## A run with a rejected edge -/

theorem noisyFile_numSamples : numSamples noisyFile = 976 := by
  unfold numSamples noisyFile
  rw [List.length_map, List.length_range]
  rfl

theorem noisyFile_getD (i : Nat) (hi : i < 1952) :
    noisyFile.getD i 0 = if i < 204 ∨ (978 ≤ i ∧ i < 1182) then 255 else 127 := by
  unfold noisyFile
  rw [List.getD_eq_getElem?_getD, List.getElem?_map, List.getElem?_range hi]
  rfl

theorem noisyFile_samplePower (n : Nat) (h1 : 1 ≤ n) (hn : n ≤ 976) :
    samplePower noisyFile n = if n ≤ 102 ∨ (490 ≤ n ∧ n ≤ 591) then 32768 else 0 := by
  obtain ⟨m, rfl⟩ : ∃ m, n = m + 1 := ⟨n - 1, by omega⟩
  rw [samplePower_bytes, noisyFile_getD (2 * m) (by omega),
    noisyFile_getD (2 * m + 1) (by omega)]
  split_ifs <;> first | rfl | omega

theorem noisyFile_runningSum (n : Nat) (hn : n ≤ 591) :
    (stateAfter noisyFile n).runningSum =
      32768 * (if n ≤ 102 then (n : Int) else if n ≤ 488 then 102
        else if n ≤ 590 then 101 else 102) := by
  induction n with
  | zero => rfl
  | succ n ih =>
    have ih' := ih (by omega)
    have hp := noisyFile_samplePower (n + 1) (by omega) (by omega)
    rw [(stateAfter_runningSum_succ noisyFile n).1, stateAfter_evicted, ih', hp,
      SMOOTH_WINDOW_eq]
    by_cases hW : 488 ≤ n
    · have he := noisyFile_samplePower (n + 1 - 488) (by omega) (by omega)
      rw [if_pos hW, he]
      push_cast
      split_ifs <;> omega
    · rw [if_neg hW]
      push_cast
      split_ifs <;> omega

theorem noisyFile_prevPower (n : Nat) (hn : n ≤ 591) :
    (stateAfter noisyFile n).prevPower =
      if (102 ≤ n ∧ n ≤ 488) ∨ n = 591 then 1 else 0 := by
  rw [stateAfter_prevPower_eq, noisyFile_runningSum n hn]
  split_ifs <;> omega

theorem noisyFile_edge (n : Nat) (hn : n + 1 ≤ 591) :
    (stateAfter noisyFile (n + 1)).edge =
      if n + 1 = 102 ∨ n + 1 = 591 then 1 else if n + 1 = 489 then -1 else 0 := by
  rw [(stateAfter_edge_eq noisyFile n).1, noisyFile_prevPower (n + 1) hn,
    noisyFile_prevPower n (by omega)]
  split_ifs <;> omega

theorem lastAccepted_of_no_edge (file : List Nat) (a k : Nat)
    (h : ∀ i, a ≤ i → i < a + k → (stateAfter file (i + 1)).edge = 0) :
    lastAccepted file (a + k) = lastAccepted file a := by
  induction k with
  | zero => rfl
  | succ k ih =>
    have hna : ¬ accepted file (a + k + 1) = true :=
      fun c => ((accepted_succ file (a + k)).1 c).1 (h (a + k) (by omega) (by omega))
    rw [← Nat.add_assoc, lastAccepted_succ, if_neg hna]
    exact ih (fun i h1 h2 => h i h1 (by omega))

theorem noisyFile_lastAccepted_102 : lastAccepted noisyFile 102 = 102 := by
  have h0 : lastAccepted noisyFile 101 = 0 :=
    (lastAccepted_eq_zero_iff noisyFile 101).2 (fun m hm => by
      rw [noisyFile_edge m (by omega)]
      split_ifs <;> first | rfl | omega)
  have ha : accepted noisyFile (101 + 1) = true :=
    (accepted_succ noisyFile 101).2 ⟨by rw [noisyFile_edge 101 (by decide)]; decide, Or.inl h0⟩
  rw [show (102 : Nat) = 101 + 1 from rfl, lastAccepted_succ, if_pos ha]

theorem noisyFile_lastAccepted_488 : lastAccepted noisyFile 488 = 102 := by
  have h := lastAccepted_of_no_edge noisyFile 102 386 (fun i h1 h2 => by
    rw [noisyFile_edge i (by omega)]
    split_ifs <;> first | rfl | omega)
  rw [noisyFile_lastAccepted_102] at h
  exact h

theorem noisyFile_rejected_489 : accepted noisyFile (488 + 1) = false := by
  have he : (stateAfter noisyFile (488 + 1)).edge = -1 := by
    rw [noisyFile_edge 488 (by decide)]
    decide
  have hna : ¬ accepted noisyFile (488 + 1) = true := by
    intro c
    have := ((accepted_succ noisyFile 488).1 c).2
    rw [noisyFile_lastAccepted_488, he] at this
    revert this
    decide
  cases hb : accepted noisyFile (488 + 1)
  · rfl
  · exact absurd hb hna

theorem noisyFile_lastAccepted_590 : lastAccepted noisyFile 590 = 102 := by
  have h489 : lastAccepted noisyFile (488 + 1) = 102 := by
    rw [lastAccepted_succ, noisyFile_rejected_489, if_neg Bool.false_ne_true]
    exact noisyFile_lastAccepted_488
  have h := lastAccepted_of_no_edge noisyFile 489 101 (fun i h1 h2 => by
    rw [noisyFile_edge i (by omega)]
    split_ifs <;> first | rfl | omega)
  rw [h489] at h
  exact h

/-- Witness for C8: on `noisyFile` the falling edge at sample 489, 387 samples
after the reference edge at sample 102, is rejected; the most recent accepted
edge before sample 591 is still the one at sample 102, and the interval of the
rising edge at sample 591 is `591 - 102 = 489`, not `591 - 489`. -/
theorem monotonic_time_witness :
    590 + 1 ≤ numSamples noisyFile ∧
    (stateAfter noisyFile (488 + 1)).edge = -1 ∧
    accepted noisyFile (488 + 1) = false ∧
    (stateAfter noisyFile (488 + 1)).prevEdge = 102 ∧
    lastAccepted noisyFile 590 = 102 ∧
    (stateAfter noisyFile (590 + 1)).edge = 1 ∧
    (stateAfter noisyFile (590 + 1)).edgeCountDiff = 489 ∧
    (stateAfter noisyFile (590 + 1)).prevEdge = 591 := by
  have hn1 : 488 + 1 ≤ numSamples noisyFile := by
    rw [noisyFile_numSamples]
    decide
  have hn2 : 590 + 1 ≤ numSamples noisyFile := by
    rw [noisyFile_numSamples]
    decide
  have w1 := monotonic_time noisyFile 488 hn1
  have w2 := monotonic_time noisyFile 590 hn2
  have w0 := monotonic_time noisyFile 487 (by rw [noisyFile_numSamples]; decide)
  have he1 : (stateAfter noisyFile (488 + 1)).edge = -1 := by
    rw [noisyFile_edge 488 (by decide)]
    decide
  have he2 : (stateAfter noisyFile (590 + 1)).edge = 1 := by
    rw [noisyFile_edge 590 (by decide)]
    decide
  have hp488 : (stateAfter noisyFile (487 + 1)).prevEdge = 102 := by
    rw [(stateAfter_prevEdge noisyFile (487 + 1)).1, noisyFile_lastAccepted_488]
    decide
  have hp489 := (w1.2.2.2.2.2.2.2.2.2 noisyFile_rejected_489).1
  rw [hp488] at hp489
  have hd := w2.2.2.2.2.1 (by rw [he2]; decide)
  rw [noisyFile_lastAccepted_590] at hd
  have hacc : accepted noisyFile (590 + 1) = true :=
    w2.2.2.2.2.2.2.1.2 ⟨by rw [he2]; decide, Or.inr (Or.inl ⟨he2, by
      rw [noisyFile_lastAccepted_590]
      decide⟩)⟩
  have hp591 := w2.2.2.2.2.2.2.2.2.1 hacc
  exact ⟨hn2, he1, noisyFile_rejected_489, hp489, noisyFile_lastAccepted_590, he2,
    by rw [hd]; decide, by rw [hp591]; decide⟩

end Decode
